import Mathlib

/-!
tbb-tool-lib: the LRU cache of `pkg/datastructures/lru_cache.go` and the
blocking map of `pkg/datastructures/sync_map.go`.

A shallow embedding of `LRUCache[K, V]` together with the part of Go's
`container/list` and of the built-in `map` that the cache uses.

* a `*list.Element` is a pair of a pointer identity (`id`) and its `Value`;
  a `list.List` is the sequence of its linked elements, front first;
* a Go `map[K]T` is an association list with at most one entry per key;
* a run-time panic (nil dereference) is the result `none`.
-/

namespace TbbToolLib

set_option linter.unusedSectionVars false

/-! ## `container/list` -/

/-- A `*list.Element`: `id` stands for the pointer, `Value` for the payload. -/
structure Element (K : Type) where
  id : Nat
  Value : K
deriving DecidableEq

namespace GoList

variable {K : Type}

/-- The test `e == x` on element pointers, as a predicate on linked elements. -/
def isElem (id : Nat) (e : Element K) : Bool := e.id == id

/-- Go `(*List).Len`. -/
def Len (l : List (Element K)) : Int := (l.length : Int)

/-- Go `(*List).Back`: the last element, `nil` on the empty list. -/
def Back (l : List (Element K)) : Option (Element K) := l.getLast?

/-- Go `(*List).PushFront` for the freshly allocated element `e`. -/
def PushFront (l : List (Element K)) (e : Element K) : List (Element K) := e :: l

/-- Go `(*List).Remove(e)` for a non-nil `e`: unlinks `e` when it is linked in
the list (`e.list == l`), and leaves the list alone otherwise. -/
def Remove (l : List (Element K)) (id : Nat) : List (Element K) :=
  l.eraseP (isElem id)

/-- Go `(*List).MoveToFront(e)`: nothing happens when `e` is not linked in the
list (or is already the front); otherwise `e` is unlinked and relinked first. -/
def MoveToFront (l : List (Element K)) (id : Nat) : List (Element K) :=
  match l.find? (isElem id) with
  | none => l
  | some e => e :: l.eraseP (isElem id)

/-- Go `(*List).Init`: the list is emptied. -/
def Init (_l : List (Element K)) : List (Element K) := []

end GoList

/-! ## Built-in `map` -/

/-- A Go `map[K]T`. -/
abbrev GoMap (K T : Type) := List (K × T)

namespace GoMap

variable {K T : Type} [DecidableEq K]

/-- The lookup `v, ok := m[k]`. -/
def get? : GoMap K T → K → Option T
  | [], _ => none
  | (a, b) :: r, k => if a = k then some b else get? r k

/-- The statement `delete(m, k)`. -/
def delete (m : GoMap K T) (k : K) : GoMap K T :=
  m.filter (fun p => decide (p.1 ≠ k))

/-- The assignment `m[k] = x`. -/
def set (m : GoMap K T) (k : K) (x : T) : GoMap K T :=
  (k, x) :: delete m k

/-- The builtin `len(m)`. -/
def len (m : GoMap K T) : Int := (m.length : Int)

end GoMap

/-! ## `LRUCache` -/

/-- Go `cacheItem[T]`: `node` is the `*list.Element` handle. -/
structure cacheItem (T : Type) where
  node : Nat
  value : T
deriving DecidableEq

/-- Go `LRUCache[K, V]`.  `nextId` is the allocator of element pointers: every
`PushFront` creates an element whose identity was never used before. -/
structure LRUCache (K V : Type) where
  cache : GoMap K (cacheItem V)
  capacity : Int
  ll : List (Element K)
  nextId : Nat
deriving DecidableEq

variable {K V : Type} [DecidableEq K]

/-- Go `NewLruCache`. -/
def NewLruCache (capacity : Int) : LRUCache K V :=
  { cache := [], capacity := capacity, ll := [], nextId := 0 }

/-- Go `(*LRUCache).Get`: the returned pair and the cache afterwards. -/
def Get [Inhabited V] (c : LRUCache K V) (key : K) : (V × Bool) × LRUCache K V :=
  match c.cache.get? key with
  | none => ((default, false), c)
  | some item => ((item.value, true), { c with ll := GoList.MoveToFront c.ll item.node })

/-- The eviction block of `Put` (lines 44-48): `none` is the nil dereference
of `c.ll.Remove(last)` when `Back()` returned `nil`. -/
def evict (c : LRUCache K V) : Option (LRUCache K V) :=
  if GoList.Len c.ll = c.capacity then
    match GoList.Back c.ll with
    | none => none
    | some last =>
      some { c with ll := GoList.Remove c.ll last.id, cache := GoMap.delete c.cache last.Value }
  else some c

/-- The insertion block of `Put` (lines 49-53): the key is pushed to the front
once for the node stored in the index and then a second time. -/
def insertNew (c : LRUCache K V) (key : K) (value : V) : LRUCache K V :=
  let node : Element K := { id := c.nextId, Value := key }
  let ll1 := GoList.PushFront c.ll node
  let cache1 := GoMap.set c.cache key { node := node.id, value := value }
  let ll2 := GoList.PushFront ll1 { id := c.nextId + 1, Value := key }
  { c with cache := cache1, ll := ll2, nextId := c.nextId + 2 }

/-- Go `(*LRUCache).Put`; `none` when the call panics. -/
def Put (c : LRUCache K V) (key : K) (value : V) : Option (LRUCache K V) :=
  match c.cache.get? key with
  | some item =>
    some { c with ll := GoList.MoveToFront c.ll item.node,
                  cache := GoMap.set c.cache key { item with value := value } }
  | none => (evict c).map (fun c1 => insertNew c1 key value)

/-- Go `(*LRUCache).Remove`. -/
def Remove (c : LRUCache K V) (key : K) : LRUCache K V :=
  match c.cache.get? key with
  | none => c
  | some item => { c with ll := GoList.Remove c.ll item.node, cache := GoMap.delete c.cache key }

/-- Go `(*LRUCache).Len`. -/
def Len (c : LRUCache K V) : Int := GoList.Len c.ll

/-- Go `(*LRUCache).Clear`. -/
def Clear (c : LRUCache K V) : LRUCache K V :=
  { c with ll := GoList.Init c.ll, cache := [] }

/-- The `found` flag of a `Get`. -/
def found [Inhabited V] (c : LRUCache K V) (key : K) : Bool := (Get c key).1.2

/-! ## Runs of operations -/

/-- One call on the public interface of the cache. -/
inductive Op (K V : Type) where
  | Put (key : K) (value : V)
  | Get (key : K)
  | Remove (key : K)
  | Clear
deriving DecidableEq

/-- The cache after one call; `none` when the call panics. -/
def step [Inhabited V] (c : LRUCache K V) : Op K V → Option (LRUCache K V)
  | Op.Put key value => Put c key value
  | Op.Get key => some (Get c key).2
  | Op.Remove key => some (Remove c key)
  | Op.Clear => some (Clear c)

/-- The cache after a sequence of calls, stopping at the first panic. -/
def run [Inhabited V] (c : LRUCache K V) : List (Op K V) → Option (LRUCache K V)
  | [] => some c
  | op :: ops => (step c op).bind (fun c1 => run c1 ops)

/-- The states of a cache built by `NewLruCache cap` after finitely many
completed calls of `Put`, `Get`, `Remove` and `Clear`. -/
inductive Reachable [Inhabited V] (cap : Int) : LRUCache K V → Prop where
  | init : Reachable cap (NewLruCache cap)
  | next {s s1 : LRUCache K V} (op : Op K V) :
      Reachable cap s → step s op = some s1 → Reachable cap s1

/-- The index handles are live: the element identities of the recency list
are pairwise distinct and older than the allocator, and every index entry
points to a linked element carrying its own key. -/
structure Inv (s : LRUCache K V) : Prop where
  nodup : (s.ll.map Element.id).Nodup
  fresh : ∀ e ∈ s.ll, e.id < s.nextId
  handle : ∀ k item, s.cache.get? k = some item → ({ id := item.node, Value := k } : Element K) ∈ s.ll

/-! ## What a caller observes -/

/-- What a call hands back to its caller: the pair of `Get`, nothing for the
other calls. -/
def returned [Inhabited V] (c : LRUCache K V) : Op K V → Option (V × Bool)
  | Op.Get key => some (Get c key).1
  | _ => none

/-- What a caller observes along a sequence of calls: for each completed call
its return value and the value of `Len()` right after it; `none` marks a panic,
which ends the run. -/
def observe [Inhabited V] (c : LRUCache K V) :
    List (Op K V) → List (Option (Option (V × Bool) × Int))
  | [] => []
  | op :: ops =>
    match step c op with
    | none => [none]
    | some c1 => some (returned c op, Len c1) :: observe c1 ops

/-- The same cache with every element pointer `i` renamed to `i + n`. -/
def shift (n : Nat) (c : LRUCache K V) : LRUCache K V :=
  { cache := c.cache.map (fun p => (p.1, { p.2 with node := p.2.node + n })),
    capacity := c.capacity,
    ll := c.ll.map (fun e => { e with id := e.id + n }),
    nextId := c.nextId + n }

/-! ## `SyncMap` of `pkg/datastructures/sync_map.go`

Every method body runs under `m.mu`, so each locked section is one atomic
step.  `Get` has two locked sections: lines 21-37 up to `cond.Wait()`, which
releases the lock and suspends the caller, and lines 39-41 after the caller has
been woken and holds the lock again. -/

/-- A caller suspended in `cond.Wait()` inside `Get`: `ticket` identifies the
suspended call, `cond` is the `*sync.Cond` it waits on, `key` its argument, and
`woken` tells whether a `Broadcast` on `cond` has released it. -/
structure Waiter (K : Type) where
  ticket : Nat
  cond : Nat
  key : K
  woken : Bool
deriving DecidableEq

/-- Go `SyncMap[K, V]` together with the callers suspended in `Get`.  `nextId`
allocates the pointers of new `sync.Cond` values and the tickets of suspended
calls. -/
structure SyncMap (K V : Type) where
  items : GoMap K V
  condiMap : GoMap K Nat
  waiters : List (Waiter K)
  nextId : Nat
deriving DecidableEq

/-- Go `NewSyncMap`. -/
def NewSyncMap : SyncMap K V :=
  { items := [], condiMap := [], waiters := [], nextId := 0 }

/-- How the first locked section of `Get` ends: with a return, or suspended in
`cond.Wait()` under a ticket. -/
inductive GetResult (V : Type) where
  | done (value : V) (ok : Bool)
  | suspended (ticket : Nat)
deriving DecidableEq

namespace SyncMap

/-- Go `(*sync.Cond).Broadcast`: every caller waiting on `cond` is released. -/
def Broadcast (ws : List (Waiter K)) (cond : Nat) : List (Waiter K) :=
  ws.map (fun w => if w.cond = cond then { w with woken := true } else w)

/-- Go `(*SyncMap).Get`, lines 21-37: the lookup, and on an absent key the
choice or creation of the condition followed by `cond.Wait()`. -/
def Get (m : SyncMap K V) (key : K) : GetResult V × SyncMap K V :=
  match m.items.get? key with
  | some item => (GetResult.done item true, m)
  | none =>
    match m.condiMap.get? key with
    | some c =>
      (GetResult.suspended m.nextId,
        { m with waiters := m.waiters ++ [{ ticket := m.nextId, cond := c, key := key, woken := false }],
                 nextId := m.nextId + 1 })
    | none =>
      (GetResult.suspended (m.nextId + 1),
        { m with condiMap := GoMap.set m.condiMap key m.nextId,
                 waiters := m.waiters ++
                   [{ ticket := m.nextId + 1, cond := m.nextId, key := key, woken := false }],
                 nextId := m.nextId + 2 })

/-- The test `w.ticket == ticket` on suspended callers. -/
def hasTicket (ticket : Nat) (w : Waiter K) : Bool := w.ticket == ticket

/-- Go `(*SyncMap).Get`, lines 39-41, for the suspended call `ticket`: after
`Wait` returns the caller reads `m.items[key]` (the zero value when absent) and
returns it with `true`.  The result is `none` while the call cannot proceed,
that is while no `Broadcast` has released it. -/
def GetResume [Inhabited V] (m : SyncMap K V) (ticket : Nat) :
    Option ((V × Bool) × SyncMap K V) :=
  match m.waiters.find? (hasTicket ticket) with
  | none => none
  | some w =>
    if w.woken then
      some (((m.items.get? w.key).getD default, true),
        { m with waiters := m.waiters.eraseP (hasTicket ticket) })
    else none

/-- Go `(*SyncMap).Set`. -/
def Set (m : SyncMap K V) (key : K) (value : V) : SyncMap K V :=
  match m.condiMap.get? key with
  | some cond =>
    { m with items := GoMap.set m.items key value,
             waiters := Broadcast m.waiters cond,
             condiMap := GoMap.delete m.condiMap key }
  | none => { m with items := GoMap.set m.items key value }

/-- Go `(*SyncMap).Delete`. -/
def Delete (m : SyncMap K V) (key : K) : SyncMap K V :=
  { m with items := GoMap.delete m.items key }

/-- Go `(*SyncMap).Len`. -/
def Len (m : SyncMap K V) : Int := GoMap.len m.items

/-- One atomic step on the map: a locked section of some caller. -/
inductive Act (K V : Type) where
  | Get (key : K)
  | Resume (ticket : Nat)
  | Set (key : K) (value : V)
  | Delete (key : K)
deriving DecidableEq

/-- Whether the step is a `Set` or a `Delete` of `key`. -/
def Act.writes (key : K) : Act K V → Bool
  | Act.Set k _ => decide (k = key)
  | Act.Delete k => decide (k = key)
  | _ => false

/-- Whether the step is a `Set` of `key`. -/
def Act.sets (key : K) : Act K V → Bool
  | Act.Set k _ => decide (k = key)
  | _ => false

/-- The map after one step; `none` when the step cannot be taken (a `Resume`
of a call that is not released). -/
def step [Inhabited V] (m : SyncMap K V) : Act K V → Option (SyncMap K V)
  | Act.Get key => some (Get m key).2
  | Act.Resume ticket => (GetResume m ticket).map (fun r => r.2)
  | Act.Set key value => some (Set m key value)
  | Act.Delete key => some (Delete m key)

/-- The map after a schedule of steps. -/
def run [Inhabited V] (m : SyncMap K V) : List (Act K V) → Option (SyncMap K V)
  | [] => some m
  | a :: as => (step m a).bind (fun m1 => run m1 as)

/-- The released calls `tickets` resume one after the other: their return
values in that order and the map afterwards. -/
def resumeAll [Inhabited V] (m : SyncMap K V) :
    List Nat → Option (List (V × Bool) × SyncMap K V)
  | [] => some ([], m)
  | t :: ts =>
    match GetResume m t with
    | none => none
    | some (r, m1) => (resumeAll m1 ts).map (fun p => (r :: p.1, p.2))

/-- The states of a map built by `NewSyncMap` after finitely many steps. -/
inductive Reachable [Inhabited V] : SyncMap K V → Prop where
  | init : Reachable NewSyncMap
  | next {m m1 : SyncMap K V} (a : Act K V) :
      Reachable m → step m a = some m1 → Reachable m1

/-- Consistency of the wait records with the suspended callers. -/
structure Inv (m : SyncMap K V) : Prop where
  keys : (m.items.map Prod.fst).Nodup
  tickets : (m.waiters.map Waiter.ticket).Nodup
  ticket_lt : ∀ w ∈ m.waiters, w.ticket < m.nextId
  cond_lt : ∀ k c, m.condiMap.get? k = some c → c < m.nextId
  wcond_lt : ∀ w ∈ m.waiters, w.cond < m.nextId
  inj : ∀ k1 k2 c, m.condiMap.get? k1 = some c → m.condiMap.get? k2 = some c → k1 = k2
  owner : ∀ w ∈ m.waiters, ∀ k, m.condiMap.get? k = some w.cond → k = w.key
  pending : ∀ w ∈ m.waiters, w.woken = false → m.condiMap.get? w.key = some w.cond
  absent : ∀ k c, m.condiMap.get? k = some c → m.items.get? k = none

end SyncMap

/-! ## Facts about the map model -/

namespace GoMap

variable {T : Type}

theorem get?_delete_self (m : GoMap K T) (k : K) : get? (delete m k) k = none := by
  induction m with
  | nil => rfl
  | cons p r ih =>
    obtain ⟨a, b⟩ := p
    by_cases h : a = k
    · simpa [delete, List.filter_cons, h] using ih
    · simpa [delete, List.filter_cons, h, get?] using ih

theorem get?_delete_ne (m : GoMap K T) {k k1 : K} (h : k1 ≠ k) :
    get? (delete m k) k1 = get? m k1 := by
  induction m with
  | nil => rfl
  | cons p r ih =>
    obtain ⟨a, b⟩ := p
    have ih1 : get? (List.filter (fun p => decide (p.1 ≠ k)) r) k1 = get? r k1 := ih
    by_cases ha : a = k
    · have hk : ¬ a = k1 := fun e => h (e.symm.trans ha)
      have hf : List.filter (fun p => decide (p.1 ≠ k)) ((a, b) :: r)
          = List.filter (fun p => decide (p.1 ≠ k)) r := by
        rw [List.filter_cons]; simp [ha]
      show get? (List.filter (fun p => decide (p.1 ≠ k)) ((a, b) :: r)) k1 = get? ((a, b) :: r) k1
      rw [hf, ih1]
      simp [get?, hk]
    · have hf : List.filter (fun p => decide (p.1 ≠ k)) ((a, b) :: r)
          = (a, b) :: List.filter (fun p => decide (p.1 ≠ k)) r := by
        rw [List.filter_cons]; simp [ha]
      show get? (List.filter (fun p => decide (p.1 ≠ k)) ((a, b) :: r)) k1 = get? ((a, b) :: r) k1
      rw [hf]
      by_cases hk : a = k1
      · simp [get?, hk]
      · simpa [get?, hk] using ih1

theorem get?_set_self (m : GoMap K T) (k : K) (x : T) : get? (set m k x) k = some x := by
  simp [set, get?]

theorem get?_set_ne (m : GoMap K T) {k k1 : K} (x : T) (h : k1 ≠ k) :
    get? (set m k x) k1 = get? m k1 := by
  have hk : k ≠ k1 := fun e => h e.symm
  simp [set, get?, hk, get?_delete_ne m h]

end GoMap

/-! ## Facts about the list model -/

namespace GoList

theorem isElem_iff (id : Nat) (e : Element K) : isElem id e = true ↔ e.id = id := by
  simp [isElem]

theorem find?_isElem {l : List (Element K)} {id : Nat} {e : Element K}
    (h : l.find? (isElem id) = some e) : e ∈ l ∧ e.id = id :=
  ⟨List.mem_of_find?_eq_some h, (isElem_iff id e).1 (List.find?_some h)⟩

theorem cons_eraseP_perm {l : List (Element K)} {p : Element K → Bool} {e : Element K}
    (h : l.find? p = some e) : (e :: l.eraseP p).Perm l := by
  induction l with
  | nil => simp at h
  | cons a r ih =>
    by_cases hp : p a = true
    · have hae : a = e := by simpa [List.find?_cons, hp] using h
      subst hae
      simp [List.eraseP_cons, hp]
    · have hr : r.find? p = some e := by simpa [List.find?_cons, hp] using h
      have hp1 : p a = false := by simpa using hp
      rw [List.eraseP_cons, hp1]
      exact (List.Perm.swap a e _).trans ((ih hr).cons a)

theorem MoveToFront_perm (l : List (Element K)) (id : Nat) : (MoveToFront l id).Perm l := by
  unfold MoveToFront
  cases h : l.find? (isElem id) with
  | none => exact List.Perm.refl l
  | some e => exact cons_eraseP_perm h

theorem Len_MoveToFront (l : List (Element K)) (id : Nat) : Len (MoveToFront l id) = Len l := by
  simp [Len, (MoveToFront_perm l id).length_eq]

theorem eq_of_id_eq {l : List (Element K)} (hn : (l.map Element.id).Nodup) {x y : Element K}
    (hx : x ∈ l) (hy : y ∈ l) (h : x.id = y.id) : x = y :=
  List.inj_on_of_nodup_map hn hx hy h

theorem MoveToFront_of_mem {l : List (Element K)} (hn : (l.map Element.id).Nodup)
    {e : Element K} (he : e ∈ l) : MoveToFront l e.id = e :: l.eraseP (isElem e.id) := by
  unfold MoveToFront
  cases h : l.find? (isElem e.id) with
  | none =>
    have := (List.find?_eq_none.1 h) e he
    simp [isElem] at this
  | some x =>
    obtain ⟨hx, hid⟩ := find?_isElem h
    rw [eq_of_id_eq hn hx he hid]

theorem mem_Remove_of_ne {l : List (Element K)} {x : Element K} {id : Nat}
    (hx : x ∈ l) (h : x.id ≠ id) : x ∈ Remove l id := by
  unfold Remove
  rw [List.mem_eraseP_of_neg]
  · exact hx
  · simpa [isElem] using h

theorem mem_of_mem_Remove {l : List (Element K)} {x : Element K} {id : Nat}
    (hx : x ∈ Remove l id) : x ∈ l :=
  List.mem_of_mem_eraseP hx

theorem nodup_Remove {l : List (Element K)} (hn : (l.map Element.id).Nodup) (id : Nat) :
    ((Remove l id).map Element.id).Nodup :=
  List.Nodup.sublist ((List.eraseP_sublist l).map Element.id) hn

theorem Len_Remove_of_mem {l : List (Element K)} {e : Element K} (he : e ∈ l) :
    Len (Remove l e.id) = Len l - 1 := by
  have h1 : (l.eraseP (isElem e.id)).length = l.length - 1 :=
    List.length_eraseP_of_mem he (by simp [isElem])
  have h2 : 0 < l.length := List.length_pos_of_mem he
  simp only [Len, Remove, h1]
  omega

end GoList

/-! ## The handle invariant along runs -/

section Invariant

variable [Inhabited V]

theorem Inv_NewLruCache (cap : Int) : Inv (NewLruCache cap : LRUCache K V) :=
  ⟨by simp [NewLruCache], by simp [NewLruCache], by simp [NewLruCache, GoMap.get?]⟩

theorem Inv_MoveToFront {s : LRUCache K V} (h : Inv s) (id : Nat) :
    Inv { s with ll := GoList.MoveToFront s.ll id } := by
  have hp := GoList.MoveToFront_perm s.ll id
  refine ⟨?_, ?_, ?_⟩
  · exact ((hp.map Element.id).nodup_iff).2 h.nodup
  · intro e he
    exact h.fresh e (hp.mem_iff.1 he)
  · intro k item hk
    exact hp.mem_iff.2 (h.handle k item hk)

theorem Inv_Get {s : LRUCache K V} (h : Inv s) (key : K) : Inv (Get s key).2 := by
  unfold Get
  cases hg : s.cache.get? key with
  | none => exact h
  | some item => exact Inv_MoveToFront h item.node

/-- Unlinking a linked element and deleting the index entry of its `Value`
keeps the handles live. -/
theorem Inv_unlink {s : LRUCache K V} (h : Inv s) {e : Element K} (he : e ∈ s.ll) :
    Inv { s with ll := GoList.Remove s.ll e.id, cache := GoMap.delete s.cache e.Value } := by
  refine ⟨GoList.nodup_Remove h.nodup e.id, ?_, ?_⟩
  · intro x hx
    exact h.fresh x (GoList.mem_of_mem_Remove hx)
  · intro k item hk
    have hne : k ≠ e.Value := by
      intro hkv
      rw [show GoMap.get? (GoMap.delete s.cache e.Value) k = none from by
        rw [hkv]; exact GoMap.get?_delete_self _ _] at hk
      exact Option.noConfusion hk
    have hk1 : s.cache.get? k = some item := by
      rw [← GoMap.get?_delete_ne s.cache hne]; exact hk
    have hmem := h.handle k item hk1
    apply GoList.mem_Remove_of_ne hmem
    intro hid
    have := GoList.eq_of_id_eq h.nodup hmem he hid
    exact hne (by rw [← this])

theorem evict_eq_some {s s1 : LRUCache K V} (h : evict s = some s1) :
    (GoList.Len s.ll ≠ s.capacity ∧ s1 = s) ∨
    (GoList.Len s.ll = s.capacity ∧ ∃ last, GoList.Back s.ll = some last ∧
      s1 = { s with ll := GoList.Remove s.ll last.id,
                    cache := GoMap.delete s.cache last.Value }) := by
  unfold evict at h
  by_cases hc : GoList.Len s.ll = s.capacity
  · rw [if_pos hc] at h
    cases hb : GoList.Back s.ll with
    | none => rw [hb] at h; exact Option.noConfusion h
    | some last =>
      rw [hb] at h
      exact Or.inr ⟨hc, last, rfl, (Option.some.inj h).symm⟩
  · rw [if_neg hc] at h
    exact Or.inl ⟨hc, (Option.some.inj h).symm⟩

theorem Inv_evict {s s1 : LRUCache K V} (h : Inv s) (he : evict s = some s1) : Inv s1 := by
  rcases evict_eq_some he with ⟨_, rfl⟩ | ⟨_, last, hb, rfl⟩
  · exact h
  · exact Inv_unlink h (List.mem_of_getLast?_eq_some hb)

theorem Inv_insertNew {s : LRUCache K V} (h : Inv s) (key : K) (value : V) :
    Inv (insertNew s key value) := by
  refine ⟨?_, ?_, ?_⟩
  · have h0 : s.nextId ∉ s.ll.map Element.id := by
      intro hm
      obtain ⟨e, he, hid⟩ := List.mem_map.1 hm
      have := h.fresh e he
      omega
    have h1 : s.nextId + 1 ∉ s.ll.map Element.id := by
      intro hm
      obtain ⟨e, he, hid⟩ := List.mem_map.1 hm
      have := h.fresh e he
      omega
    simp only [insertNew, GoList.PushFront, List.map_cons, List.nodup_cons, List.mem_cons]
    refine ⟨?_, h0, h.nodup⟩
    rintro (hx | hx)
    · omega
    · exact h1 hx
  · intro e he
    simp only [insertNew, GoList.PushFront, List.mem_cons] at he ⊢
    rcases he with rfl | rfl | he
    · show s.nextId + 1 < s.nextId + 2
      omega
    · show s.nextId < s.nextId + 2
      omega
    · have := h.fresh e he
      omega
  · intro k item hk
    simp only [insertNew, GoList.PushFront, List.mem_cons] at hk ⊢
    by_cases hkk : k = key
    · subst hkk
      rw [GoMap.get?_set_self] at hk
      have := Option.some.inj hk
      subst this
      exact Or.inr (Or.inl rfl)
    · rw [GoMap.get?_set_ne _ _ hkk] at hk
      exact Or.inr (Or.inr (h.handle k item hk))

theorem Inv_Put {s s1 : LRUCache K V} (h : Inv s) {key : K} {value : V}
    (hp : Put s key value = some s1) : Inv s1 := by
  unfold Put at hp
  cases hg : s.cache.get? key with
  | some item =>
    rw [hg] at hp
    have := Option.some.inj hp
    subst this
    have hm := Inv_MoveToFront h item.node
    refine ⟨hm.nodup, hm.fresh, ?_⟩
    intro k it hk
    by_cases hkk : k = key
    · subst hkk
      have hk1 : GoMap.get? (GoMap.set s.cache k { item with value := value }) k = some it := hk
      rw [GoMap.get?_set_self] at hk1
      have := Option.some.inj hk1
      subst this
      exact hm.handle k item hg
    · have hk1 : GoMap.get? (GoMap.set s.cache key { item with value := value }) k = some it := hk
      rw [GoMap.get?_set_ne _ _ hkk] at hk1
      exact hm.handle k it hk1
  | none =>
    rw [hg] at hp
    cases he : evict s with
    | none => rw [he] at hp; exact Option.noConfusion hp
    | some s2 =>
      rw [he] at hp
      have := Option.some.inj hp
      subst this
      exact Inv_insertNew (Inv_evict h he) key value

theorem Inv_Remove {s : LRUCache K V} (h : Inv s) (key : K) : Inv (Remove s key) := by
  unfold Remove
  cases hg : s.cache.get? key with
  | none => exact h
  | some item =>
    exact Inv_unlink (e := { id := item.node, Value := key }) h (h.handle key item hg)

theorem Inv_Clear {s : LRUCache K V} (_h : Inv s) : Inv (Clear s) :=
  ⟨by simp [Clear, GoList.Init], by simp [Clear, GoList.Init], by simp [Clear, GoMap.get?]⟩

theorem Inv_step {s s1 : LRUCache K V} (h : Inv s) {op : Op K V}
    (hs : step s op = some s1) : Inv s1 := by
  cases op with
  | Put key value => exact Inv_Put h hs
  | Get key =>
    have := Option.some.inj hs
    subst this
    exact Inv_Get h key
  | Remove key =>
    have := Option.some.inj hs
    subst this
    exact Inv_Remove h key
  | Clear =>
    have := Option.some.inj hs
    subst this
    exact Inv_Clear h

theorem Inv_of_Reachable {cap : Int} {s : LRUCache K V} (h : Reachable cap s) : Inv s := by
  induction h with
  | init => exact Inv_NewLruCache cap
  | next op _ hs ih => exact Inv_step ih hs

end Invariant

/-! ## Capacity and completion of `Put` -/

section Completion

variable [Inhabited V]

theorem capacity_evict {s s1 : LRUCache K V} (he : evict s = some s1) :
    s1.capacity = s.capacity := by
  rcases evict_eq_some he with ⟨_, rfl⟩ | ⟨_, last, _, rfl⟩ <;> rfl

theorem capacity_step {s s1 : LRUCache K V} {op : Op K V} (hs : step s op = some s1) :
    s1.capacity = s.capacity := by
  cases op with
  | Put key value =>
    have hp : Put s key value = some s1 := hs
    unfold Put at hp
    cases hg : s.cache.get? key with
    | some item =>
      rw [hg] at hp
      rw [← Option.some.inj hp]
    | none =>
      rw [hg] at hp
      cases he : evict s with
      | none => rw [he] at hp; exact Option.noConfusion hp
      | some s2 =>
        rw [he] at hp
        rw [← Option.some.inj hp]
        exact (capacity_evict he : s2.capacity = s.capacity)
  | Get key =>
    rw [← Option.some.inj hs]
    unfold Get
    cases s.cache.get? key <;> rfl
  | Remove key =>
    rw [← Option.some.inj hs]
    unfold Remove
    cases s.cache.get? key <;> rfl
  | Clear =>
    rw [← Option.some.inj hs]
    rfl

theorem capacity_of_Reachable {cap : Int} {s : LRUCache K V} (h : Reachable cap s) :
    s.capacity = cap := by
  induction h with
  | init => rfl
  | next op _ hs ih => rw [capacity_step hs, ih]

/-- With a positive capacity the eviction block never meets an empty list. -/
theorem evict_completes {s : LRUCache K V} (hcap : 1 ≤ s.capacity) :
    ∃ s1, evict s = some s1 := by
  unfold evict
  by_cases hc : GoList.Len s.ll = s.capacity
  · rw [if_pos hc]
    cases hb : GoList.Back s.ll with
    | none =>
      have hnil : s.ll = [] := List.getLast?_eq_none_iff.1 hb
      rw [hnil] at hc
      simp [GoList.Len] at hc
      omega
    | some last => exact ⟨_, rfl⟩
  · rw [if_neg hc]
    exact ⟨_, rfl⟩

theorem Reachable_of_run {cap : Int} {s s1 : LRUCache K V} (h : Reachable cap s)
    (ops : List (Op K V)) (hr : run s ops = some s1) : Reachable cap s1 := by
  induction ops generalizing s with
  | nil =>
    rw [← Option.some.inj hr]
    exact h
  | cons op ops ih =>
    simp only [run] at hr
    cases hs : step s op with
    | none => rw [hs] at hr; exact Option.noConfusion hr
    | some s2 =>
      rw [hs] at hr
      exact ih (Reachable.next op h hs) hr

end Completion

/-! ## The claims about the LRU cache -/

section Claims

variable [Inhabited V]

/-- C1, the code at capacity 3 with the four distinct keys 1, 2, 3, 4 put in
order: every `Put` of a new key links two elements, the length of the recency
list goes 2, 4, 6, 8 and never equals the capacity, so nothing is evicted; the
first key is still found and `Len()` is 8 instead of 3. -/
theorem Put_four_keys_capacity_three_no_eviction :
    (run (NewLruCache 3 : LRUCache Nat Nat)
        [Op.Put 1 10, Op.Put 2 20, Op.Put 3 30, Op.Put 4 40]).map
      (fun s => (found s 1, Len s)) = some (true, 8) := by
  decide

/-- C2, the code on the two scenarios of the claim.  Capacity 3, `Put` A, B,
C, `Get` A, `Put` D: nothing is evicted, B is still found and `Len()` is 8.
Capacity 2, `Put` A, `Get` A, `Put` B: the second element that `Put` linked for
A is at the back, it is evicted, and the key A just read is no longer found. -/
theorem Get_then_Put_evicts_wrong_key :
    (run (NewLruCache 3 : LRUCache String Nat)
        [Op.Put "A" 1, Op.Put "B" 2, Op.Put "C" 3, Op.Get "A", Op.Put "D" 4]).map
      (fun s => (found s "A", found s "B", found s "C", found s "D", Len s))
      = some (true, true, true, true, 8) ∧
    (run (NewLruCache 2 : LRUCache String Nat)
        [Op.Put "A" 1, Op.Get "A", Op.Put "B" 2]).map
      (fun s => (found s "A", found s "B")) = some (false, true) := by
  decide

/-- C3, the code at capacity 1 after a single `Put`: the recency list holds
two elements, so `Len()` is 2 and exceeds the capacity. -/
theorem Len_exceeds_capacity_after_one_Put :
    (run (NewLruCache 1 : LRUCache Nat Nat) [Op.Put 1 10]).map
      (fun s => (Len s, decide (Len s ≤ s.capacity))) = some (2, false) := by
  decide

/-- C4, the code on the two scenarios of the claim.  Capacity 5 and three
distinct keys: the list has 6 elements and the index 3 entries.  Capacity 10,
`Put` key, `Get` key, `Remove` key, `Put` key2: the list has 3 elements and
the index 1 entry. -/
theorem Len_differs_from_index_size :
    (run (NewLruCache 5 : LRUCache String Nat)
        [Op.Put "key1" 1, Op.Put "key2" 2, Op.Put "key3" 3]).map
      (fun s => (Len s, GoMap.len s.cache)) = some (6, 3) ∧
    (run (NewLruCache 10 : LRUCache String String)
        [Op.Put "key" "value", Op.Get "key", Op.Remove "key", Op.Put "key2" "value2"]).map
      (fun s => (Len s, GoMap.len s.cache, found s "key2")) = some (3, 1, true) := by
  decide

/-- C5: in every state reachable from `NewLruCache cap` with `1 ≤ cap`, for
every key and value, `Put key value` completes and the `Get key` that follows
returns `(value, true)`. -/
theorem Put_then_Get_returns_value (cap : Int) (hcap : 1 ≤ cap) (s : LRUCache K V)
    (hr : Reachable cap s) (key : K) (value : V) :
    ∃ s1, Put s key value = some s1 ∧ (Get s1 key).1 = (value, true) := by
  have hc : 1 ≤ s.capacity := by rw [capacity_of_Reachable hr]; exact hcap
  unfold Put
  cases hg : s.cache.get? key with
  | some item =>
    refine ⟨_, rfl, ?_⟩
    simp only [Get, GoMap.get?_set_self]
  | none =>
    obtain ⟨s2, he⟩ := evict_completes hc
    refine ⟨insertNew s2 key value, by rw [he]; rfl, ?_⟩
    simp only [Get, insertNew, GoMap.get?_set_self]

/-- C5 at capacity 2 in the state after `Put 1 10`, where the `Put` of the new
key 2 goes through the eviction block. -/
theorem Put_then_Get_returns_value_witness :
    (1 : Int) ≤ 2 ∧
    Reachable 2 (insertNew (NewLruCache 2 : LRUCache Nat Nat) 1 10) ∧
    ∃ s1, Put (insertNew (NewLruCache 2 : LRUCache Nat Nat) 1 10) 2 20 = some s1 ∧
      (Get s1 2).1 = (20, true) :=
  ⟨by decide, Reachable.next (Op.Put 1 10) Reachable.init (by rfl),
    Put_then_Get_returns_value 2 (by decide) _
      (Reachable.next (Op.Put 1 10) Reachable.init (by rfl)) 2 20⟩

/-- C6, the code at capacity 2: after `Put 1 10` one key is stored, which is
fewer than the capacity, and key 2 is absent; yet `Put 2 20` takes the eviction
block (the list already has 2 elements) and key 1 is no longer found. -/
theorem Put_under_capacity_evicts :
    (run (NewLruCache 2 : LRUCache Nat Nat) [Op.Put 1 10]).bind
      (fun s => (Put s 2 20).map
        (fun s1 => (GoMap.len s.cache, found s 2, found s 1, found s1 1, found s1 2)))
      = some (1, false, true, false, true) := by
  decide

/-- C7: in every reachable state, `Put key value` on a key present in the
index (with entry `item`) completes; afterwards `Get key` returns
`(value, true)`, `Len()` is unchanged, every other key has the index entry it
had (nothing is evicted), the recency list is a permutation of the old one, and
the node of `key` is its first element, the others keeping their order. -/
theorem Put_existing_key_updates_in_place (cap : Int) (s : LRUCache K V)
    (hr : Reachable cap s) (key : K) (item : cacheItem V) (value : V)
    (hk : s.cache.get? key = some item) :
    ∃ s1, Put s key value = some s1 ∧
      (Get s1 key).1 = (value, true) ∧
      Len s1 = Len s ∧
      (∀ k1, k1 ≠ key → s1.cache.get? k1 = s.cache.get? k1 ∧ (Get s1 k1).1 = (Get s k1).1) ∧
      s1.ll.Perm s.ll ∧
      s1.cache.get? key = some { node := item.node, value := value } ∧
      s1.ll = { id := item.node, Value := key } :: s.ll.eraseP (GoList.isElem item.node) := by
  have hinv := Inv_of_Reachable hr
  have hmem := hinv.handle key item hk
  refine ⟨{ s with ll := GoList.MoveToFront s.ll item.node,
                   cache := GoMap.set s.cache key { item with value := value } },
    by unfold Put; rw [hk], ?_, ?_, ?_, ?_, ?_, ?_⟩
  · simp only [Get, GoMap.get?_set_self]
  · exact GoList.Len_MoveToFront s.ll item.node
  · intro k1 hk1
    have h1 : GoMap.get? (GoMap.set s.cache key { item with value := value }) k1
        = GoMap.get? s.cache k1 := GoMap.get?_set_ne _ _ hk1
    refine ⟨h1, ?_⟩
    simp only [Get, h1]
    cases s.cache.get? k1 <;> rfl
  · exact GoList.MoveToFront_perm s.ll item.node
  · exact GoMap.get?_set_self _ _ _
  · exact GoList.MoveToFront_of_mem hinv.nodup hmem

/-- C7 at capacity 2 in the full state after `Put 1 10`, for the stored key 1. -/
theorem Put_existing_key_updates_in_place_witness :
    Reachable 2 (insertNew (NewLruCache 2 : LRUCache Nat Nat) 1 10) ∧
    GoMap.get? (insertNew (NewLruCache 2 : LRUCache Nat Nat) 1 10).cache 1
      = some { node := 0, value := 10 } ∧
    ∃ s1, Put (insertNew (NewLruCache 2 : LRUCache Nat Nat) 1 10) 1 11 = some s1 ∧
      (Get s1 1).1 = (11, true) ∧
      Len s1 = Len (insertNew (NewLruCache 2 : LRUCache Nat Nat) 1 10) ∧
      (∀ k1, k1 ≠ 1 →
        s1.cache.get? k1 = GoMap.get? (insertNew (NewLruCache 2 : LRUCache Nat Nat) 1 10).cache k1 ∧
        (Get s1 k1).1 = (Get (insertNew (NewLruCache 2 : LRUCache Nat Nat) 1 10) k1).1) ∧
      s1.ll.Perm (insertNew (NewLruCache 2 : LRUCache Nat Nat) 1 10).ll ∧
      s1.cache.get? 1 = some { node := 0, value := 11 } ∧
      s1.ll = { id := 0, Value := 1 } ::
        (insertNew (NewLruCache 2 : LRUCache Nat Nat) 1 10).ll.eraseP (GoList.isElem 0) :=
  ⟨Reachable.next (Op.Put 1 10) Reachable.init (by rfl), rfl,
    Put_existing_key_updates_in_place 2 _
      (Reachable.next (Op.Put 1 10) Reachable.init (by rfl)) 1 { node := 0, value := 10 } 11 rfl⟩

/-- C8: in every reachable state, after `Remove key` of a key present in the
index `Get key` returns `(zero, false)`, `Len()` is one less than before, and
`Get` of every other key returns what it returned before. -/
theorem Remove_present_key (cap : Int) (s : LRUCache K V) (hr : Reachable cap s)
    (key : K) (item : cacheItem V) (hk : s.cache.get? key = some item) :
    (Get (Remove s key) key).1 = (default, false) ∧
    Len (Remove s key) = Len s - 1 ∧
    ∀ k1, k1 ≠ key → (Get (Remove s key) k1).1 = (Get s k1).1 := by
  have hmem := (Inv_of_Reachable hr).handle key item hk
  have hrem : Remove s key = { s with ll := GoList.Remove s.ll item.node,
                                      cache := GoMap.delete s.cache key } := by
    unfold Remove; rw [hk]
  rw [hrem]
  refine ⟨?_, ?_, ?_⟩
  · simp only [Get, GoMap.get?_delete_self]
  · exact GoList.Len_Remove_of_mem hmem
  · intro k1 hk1
    have h1 : GoMap.get? (GoMap.delete s.cache key) k1 = GoMap.get? s.cache k1 :=
      GoMap.get?_delete_ne _ hk1
    simp only [Get, h1]
    cases s.cache.get? k1 <;> rfl

/-- C8 at capacity 5 in the state after `Put 1 10`, `Put 2 20`, for key 1. -/
theorem Remove_present_key_witness :
    Reachable 5 (insertNew (insertNew (NewLruCache 5 : LRUCache Nat Nat) 1 10) 2 20) ∧
    GoMap.get? (insertNew (insertNew (NewLruCache 5 : LRUCache Nat Nat) 1 10) 2 20).cache 1
      = some { node := 0, value := 10 } ∧
    (Get (Remove (insertNew (insertNew (NewLruCache 5 : LRUCache Nat Nat) 1 10) 2 20) 1) 1).1
      = (default, false) ∧
    Len (Remove (insertNew (insertNew (NewLruCache 5 : LRUCache Nat Nat) 1 10) 2 20) 1)
      = Len (insertNew (insertNew (NewLruCache 5 : LRUCache Nat Nat) 1 10) 2 20) - 1 ∧
    ∀ k1, k1 ≠ 1 →
      (Get (Remove (insertNew (insertNew (NewLruCache 5 : LRUCache Nat Nat) 1 10) 2 20) 1) k1).1
        = (Get (insertNew (insertNew (NewLruCache 5 : LRUCache Nat Nat) 1 10) 2 20) k1).1 :=
  ⟨Reachable.next (Op.Put 2 20) (Reachable.next (Op.Put 1 10) Reachable.init (by rfl)) (by rfl), rfl,
    Remove_present_key 5 _
      (Reachable.next (Op.Put 2 20) (Reachable.next (Op.Put 1 10) Reachable.init (by rfl)) (by rfl))
      1 { node := 0, value := 10 } rfl⟩

/-- C9: `Remove key` of a key that is not in the index completes and returns
the cache exactly as it was (index, recency list and its order, capacity), so
`Len()` and every `Get` are as before; this holds in every state, reachable or
not. -/
theorem Remove_absent_key_noop (s : LRUCache K V) (key : K)
    (hk : s.cache.get? key = none) :
    step s (Op.Remove key) = some s ∧ Remove s key = s ∧
    Len (Remove s key) = Len s ∧ ∀ k1, Get (Remove s key) k1 = Get s k1 := by
  have h : Remove s key = s := by unfold Remove; rw [hk]
  refine ⟨?_, h, by rw [h], fun k1 => by rw [h]⟩
  show some (Remove s key) = some s
  rw [h]

/-- C9 at capacity 5 in the state after `Put 1 10`, `Put 2 20`, for the absent
key 3. -/
theorem Remove_absent_key_noop_witness :
    GoMap.get? (insertNew (insertNew (NewLruCache 5 : LRUCache Nat Nat) 1 10) 2 20).cache 3 = none ∧
    step (insertNew (insertNew (NewLruCache 5 : LRUCache Nat Nat) 1 10) 2 20) (Op.Remove 3)
      = some (insertNew (insertNew (NewLruCache 5 : LRUCache Nat Nat) 1 10) 2 20) ∧
    Remove (insertNew (insertNew (NewLruCache 5 : LRUCache Nat Nat) 1 10) 2 20) 3
      = insertNew (insertNew (NewLruCache 5 : LRUCache Nat Nat) 1 10) 2 20 ∧
    Len (Remove (insertNew (insertNew (NewLruCache 5 : LRUCache Nat Nat) 1 10) 2 20) 3)
      = Len (insertNew (insertNew (NewLruCache 5 : LRUCache Nat Nat) 1 10) 2 20) ∧
    ∀ k1, Get (Remove (insertNew (insertNew (NewLruCache 5 : LRUCache Nat Nat) 1 10) 2 20) 3) k1
      = Get (insertNew (insertNew (NewLruCache 5 : LRUCache Nat Nat) 1 10) 2 20) k1 :=
  ⟨rfl, Remove_absent_key_noop _ 3 rfl⟩

/-- C10: in every state, `Get key` leaves the index (stored keys, values and
handles), the capacity and `Len()` as they were, the recency list afterwards is
a permutation of the list before, and when `key` is not in the index the call
returns `(zero, false)` with the cache unchanged. -/
theorem Get_only_reorders (s : LRUCache K V) (key : K) :
    (Get s key).2.cache = s.cache ∧
    (Get s key).2.capacity = s.capacity ∧
    Len (Get s key).2 = Len s ∧
    (Get s key).2.ll.Perm s.ll ∧
    (∀ k1, (Get (Get s key).2 k1).1 = (Get s k1).1) ∧
    (s.cache.get? key = none → Get s key = ((default, false), s)) := by
  unfold Get
  cases hg : s.cache.get? key with
  | none =>
    exact ⟨rfl, rfl, rfl, List.Perm.refl _, fun _ => rfl, fun _ => rfl⟩
  | some item =>
    refine ⟨rfl, rfl, GoList.Len_MoveToFront s.ll item.node,
      GoList.MoveToFront_perm s.ll item.node, fun k1 => ?_, fun h => Option.noConfusion h⟩
    show (match s.cache.get? k1 with
      | none => ((default, false), _)
      | some it => ((it.value, true), _)).1 = _
    cases s.cache.get? k1 <;> rfl

/-- C10 on the empty cache of capacity 1 for the absent key 7. -/
theorem Get_only_reorders_witness :
    Get (NewLruCache 1 : LRUCache Nat Nat) 7 = ((default, false), NewLruCache 1) :=
  (Get_only_reorders (NewLruCache 1 : LRUCache Nat Nat) 7).2.2.2.2.2 rfl

end Claims

/-! ## Renaming of element pointers -/

section Shift

variable [Inhabited V]

/-- The renaming of one element. -/
theorem isElem_shift (n id : Nat) :
    (GoList.isElem (id + n) ∘ fun e : Element K => { e with id := e.id + n })
      = GoList.isElem id := by
  funext e
  simp [GoList.isElem]

theorem MoveToFront_shift (n id : Nat) (l : List (Element K)) :
    GoList.MoveToFront (l.map (fun e => { e with id := e.id + n })) (id + n)
      = (GoList.MoveToFront l id).map (fun e => { e with id := e.id + n }) := by
  unfold GoList.MoveToFront
  rw [List.find?_map, List.eraseP_map, isElem_shift]
  cases l.find? (GoList.isElem id) <;> rfl

theorem Remove_shift (n id : Nat) (l : List (Element K)) :
    GoList.Remove (l.map (fun e => { e with id := e.id + n })) (id + n)
      = (GoList.Remove l id).map (fun e => { e with id := e.id + n }) := by
  unfold GoList.Remove
  rw [List.eraseP_map, isElem_shift]

theorem get?_shift (n : Nat) (m : GoMap K (cacheItem V)) (k : K) :
    GoMap.get? (m.map (fun p => (p.1, { p.2 with node := p.2.node + n }))) k
      = (GoMap.get? m k).map (fun it => { it with node := it.node + n }) := by
  induction m with
  | nil => rfl
  | cons p r ih =>
    obtain ⟨a, b⟩ := p
    by_cases h : a = k
    · simp [GoMap.get?, h]
    · simpa [GoMap.get?, h] using ih

theorem delete_shift (n : Nat) (m : GoMap K (cacheItem V)) (k : K) :
    GoMap.delete (m.map (fun p => (p.1, { p.2 with node := p.2.node + n }))) k
      = (GoMap.delete m k).map (fun p => (p.1, { p.2 with node := p.2.node + n })) := by
  unfold GoMap.delete
  rw [List.filter_map]
  rfl

theorem Get_shift (n : Nat) (s : LRUCache K V) (key : K) :
    Get (shift n s) key = ((Get s key).1, shift n (Get s key).2) := by
  unfold Get
  simp only [shift, get?_shift]
  cases s.cache.get? key with
  | none => rfl
  | some item =>
    simp only [Option.map_some', MoveToFront_shift]

theorem Len_shift (n : Nat) (s : LRUCache K V) : Len (shift n s) = Len s := by
  simp [Len, GoList.Len, shift]

theorem evict_shift (n : Nat) (s : LRUCache K V) :
    evict (shift n s) = (evict s).map (shift n) := by
  unfold evict
  have hlen : GoList.Len (shift n s).ll = GoList.Len s.ll := Len_shift n s
  have hcap : (shift n s).capacity = s.capacity := rfl
  rw [hlen, hcap]
  by_cases hc : GoList.Len s.ll = s.capacity
  · rw [if_pos hc, if_pos hc]
    have hb : GoList.Back (shift n s).ll
        = (GoList.Back s.ll).map (fun e => { e with id := e.id + n }) := by
      simp [GoList.Back, shift]
    rw [hb]
    cases GoList.Back s.ll with
    | none => rfl
    | some last =>
      simp only [Option.map_some', shift, Remove_shift, delete_shift]
  · rw [if_neg hc, if_neg hc]
    rfl

theorem insertNew_shift (n : Nat) (s : LRUCache K V) (key : K) (value : V) :
    insertNew (shift n s) key value = shift n (insertNew s key value) := by
  simp only [insertNew, shift, GoList.PushFront, GoMap.set, delete_shift, List.map_cons,
    Nat.add_right_comm]

theorem Put_shift (n : Nat) (s : LRUCache K V) (key : K) (value : V) :
    Put (shift n s) key value = (Put s key value).map (shift n) := by
  unfold Put
  have hg : GoMap.get? (shift n s).cache key
      = (GoMap.get? s.cache key).map (fun it => { it with node := it.node + n }) :=
    get?_shift n s.cache key
  rw [hg]
  cases s.cache.get? key with
  | some item =>
    simp only [Option.map_some', shift, MoveToFront_shift, GoMap.set, delete_shift, List.map_cons]
  | none =>
    simp only [Option.map_none', evict_shift, Option.map_map]
    congr 1
    funext c1
    exact insertNew_shift n c1 key value

theorem Remove_cache_shift (n : Nat) (s : LRUCache K V) (key : K) :
    Remove (shift n s) key = shift n (Remove s key) := by
  unfold Remove
  have hg : GoMap.get? (shift n s).cache key
      = (GoMap.get? s.cache key).map (fun it => { it with node := it.node + n }) :=
    get?_shift n s.cache key
  rw [hg]
  cases s.cache.get? key with
  | none => rfl
  | some item =>
    simp only [Option.map_some', shift, Remove_shift, delete_shift]

theorem step_shift (n : Nat) (s : LRUCache K V) (op : Op K V) :
    step (shift n s) op = (step s op).map (shift n) := by
  cases op with
  | Put key value => exact Put_shift n s key value
  | Get key => simp only [step, Get_shift, Option.map_some']
  | Remove key => simp only [step, Remove_cache_shift, Option.map_some']
  | Clear => rfl

theorem returned_shift (n : Nat) (s : LRUCache K V) (op : Op K V) :
    returned (shift n s) op = returned s op := by
  cases op with
  | Get key => simp only [returned, Get_shift]
  | Put key value => rfl
  | Remove key => rfl
  | Clear => rfl

theorem observe_shift (n : Nat) (s : LRUCache K V) (ops : List (Op K V)) :
    observe (shift n s) ops = observe s ops := by
  induction ops generalizing s with
  | nil => rfl
  | cons op ops ih =>
    simp only [observe, step_shift, returned_shift]
    cases step s op with
    | none => rfl
    | some s1 => simp only [Option.map_some', Len_shift, ih]

end Shift

/-! ## Clear, construction, completion and handles -/

section CacheClaims

variable [Inhabited V]

theorem run_completes_of_capacity (ops : List (Op K V)) (s : LRUCache K V)
    (hcap : 1 ≤ s.capacity) : ∃ s1, run s ops = some s1 ∧ s1.capacity = s.capacity := by
  induction ops generalizing s with
  | nil => exact ⟨s, rfl, rfl⟩
  | cons op ops ih =>
    have hstep : ∃ s2, step s op = some s2 := by
      cases op with
      | Put key value =>
        show ∃ s2, Put s key value = some s2
        unfold Put
        cases s.cache.get? key with
        | some item => exact ⟨_, rfl⟩
        | none =>
          obtain ⟨s3, he⟩ := evict_completes hcap
          exact ⟨insertNew s3 key value, by rw [he]; rfl⟩
      | Get key => exact ⟨_, rfl⟩
      | Remove key => exact ⟨_, rfl⟩
      | Clear => exact ⟨_, rfl⟩
    obtain ⟨s2, hs2⟩ := hstep
    have hc2 : s2.capacity = s.capacity := capacity_step hs2
    obtain ⟨s1, hr1, hc1⟩ := ih s2 (by rw [hc2]; exact hcap)
    refine ⟨s1, ?_, by rw [hc1, hc2]⟩
    simp only [run, hs2, Option.some_bind]
    exact hr1

/-- C11: in every state reachable from `NewLruCache cap`, `Clear()` leaves the
empty index, the empty recency list and the capacity `cap`, which are the
fields of `NewLruCache cap` (the two states differ only in the names of the
element pointers that later calls will allocate); `Len()` is 0, and every
sequence of later calls returns and shows through `Len()` exactly what it does
on `NewLruCache cap`. -/
theorem Clear_resets_to_fresh_cache (cap : Int) (s : LRUCache K V) (hr : Reachable cap s) :
    (Clear s).cache = (NewLruCache cap : LRUCache K V).cache ∧
    (Clear s).ll = (NewLruCache cap : LRUCache K V).ll ∧
    (Clear s).capacity = (NewLruCache cap : LRUCache K V).capacity ∧
    Clear s = shift s.nextId (NewLruCache cap) ∧
    Len (Clear s) = 0 ∧
    ∀ ops, observe (Clear s) ops = observe (NewLruCache cap : LRUCache K V) ops := by
  have hc : s.capacity = cap := capacity_of_Reachable hr
  have hs : Clear s = shift s.nextId (NewLruCache cap) := by
    simp [Clear, shift, NewLruCache, GoList.Init, hc]
  refine ⟨rfl, rfl, hc, hs, rfl, fun ops => ?_⟩
  rw [hs]
  exact observe_shift s.nextId _ ops

/-- C11 at capacity 2 in the full state after `Put 1 10`. -/
theorem Clear_resets_to_fresh_cache_witness :
    Reachable 2 (insertNew (NewLruCache 2 : LRUCache Nat Nat) 1 10) ∧
    Len (Clear (insertNew (NewLruCache 2 : LRUCache Nat Nat) 1 10)) = 0 ∧
    ∀ ops, observe (Clear (insertNew (NewLruCache 2 : LRUCache Nat Nat) 1 10)) ops
      = observe (NewLruCache 2 : LRUCache Nat Nat) ops :=
  ⟨Reachable.next (Op.Put 1 10) Reachable.init (by rfl),
    (Clear_resets_to_fresh_cache 2 _
      (Reachable.next (Op.Put 1 10) Reachable.init (by rfl))).2.2.2.2⟩

/-- C12 as stated fails at capacity -1: `NewLruCache (-1)` returns a cache
whose stored capacity is -1, not 1, and the cache is usable: `Put 1 10` and
`Put 2 20` complete and both keys are found with their values. -/
theorem NewLruCache_negative_capacity_not_validated :
    (NewLruCache (-1) : LRUCache Nat Nat).capacity = -1 ∧
    (NewLruCache (-1) : LRUCache Nat Nat).capacity ≠ 1 ∧
    (run (NewLruCache (-1) : LRUCache Nat Nat) [Op.Put 1 10, Op.Put 2 20]).map
      (fun s => ((Get s 1).1, (Get s 2).1, s.capacity)) = some ((10, true), (20, true), -1) := by
  decide

/-- C12 as amended: `NewLruCache cap` validates nothing: for every capacity
`cap`, also zero or negative, it returns an empty cache whose stored capacity
is `cap` itself; when `cap < 0` that cache is usable: in every reachable state
every `Put` completes, the `Get` that follows returns the value, and no other
index entry is touched (nothing is evicted). -/
theorem NewLruCache_stores_capacity_as_given (cap : Int) :
    (NewLruCache cap : LRUCache K V).capacity = cap ∧
    (NewLruCache cap : LRUCache K V).cache = [] ∧
    (NewLruCache cap : LRUCache K V).ll = [] ∧
    (cap < 0 → ∀ s : LRUCache K V, Reachable cap s → ∀ key value,
      ∃ s1, Put s key value = some s1 ∧ (Get s1 key).1 = (value, true) ∧
        ∀ k1, k1 ≠ key → s1.cache.get? k1 = s.cache.get? k1) := by
  refine ⟨rfl, rfl, rfl, ?_⟩
  intro hneg s hr key value
  have hc : s.capacity = cap := capacity_of_Reachable hr
  have hev : evict s = some s := by
    unfold evict
    have hne : GoList.Len s.ll ≠ s.capacity := by
      have h0 : (0 : Int) ≤ GoList.Len s.ll := by simp [GoList.Len]
      omega
    rw [if_neg hne]
  unfold Put
  cases hg : s.cache.get? key with
  | some item =>
    refine ⟨_, rfl, ?_, fun k1 hk1 => ?_⟩
    · simp only [Get, GoMap.get?_set_self]
    · exact GoMap.get?_set_ne _ _ hk1
  | none =>
    refine ⟨insertNew s key value, by rw [hev]; rfl, ?_, fun k1 hk1 => ?_⟩
    · simp only [Get, insertNew, GoMap.get?_set_self]
    · exact GoMap.get?_set_ne _ _ hk1

/-- C12 as amended, at capacity -1 in the state after `Put 1 10`, for the new
key 2. -/
theorem NewLruCache_stores_capacity_as_given_witness :
    (-1 : Int) < 0 ∧
    Reachable (-1) (insertNew (NewLruCache (-1) : LRUCache Nat Nat) 1 10) ∧
    ∃ s1, Put (insertNew (NewLruCache (-1) : LRUCache Nat Nat) 1 10) 2 20 = some s1 ∧
      (Get s1 2).1 = (20, true) ∧
      ∀ k1, k1 ≠ 2 → s1.cache.get? k1
        = GoMap.get? (insertNew (NewLruCache (-1) : LRUCache Nat Nat) 1 10).cache k1 :=
  ⟨by decide, Reachable.next (Op.Put 1 10) Reachable.init (by rfl),
    (NewLruCache_stores_capacity_as_given (-1)).2.2.2 (by decide) _
      (Reachable.next (Op.Put 1 10) Reachable.init (by rfl)) 2 20⟩

/-- C13: on `NewLruCache cap` with `1 ≤ cap` every finite sequence of `Put`,
`Get`, `Remove` and `Clear` runs to its end without a panic, and in the state
it reaches every further `Put` completes; in particular, when the length of the
recency list equals the capacity there, `Back()` is an element of the list (of
type `Element K`, so its value is a key). -/
theorem run_completes_positive_capacity (cap : Int) (hcap : 1 ≤ cap) (ops : List (Op K V)) :
    ∃ s, run (NewLruCache cap : LRUCache K V) ops = some s ∧
      (∀ key value, ∃ s1, Put s key value = some s1) ∧
      (GoList.Len s.ll = s.capacity → ∃ last, GoList.Back s.ll = some last ∧ last ∈ s.ll) := by
  obtain ⟨s, hr, hc⟩ := run_completes_of_capacity ops (NewLruCache cap : LRUCache K V) hcap
  have hs : 1 ≤ s.capacity := by rw [hc]; exact hcap
  refine ⟨s, hr, fun key value => ?_, fun hlen => ?_⟩
  · obtain ⟨s1, h1, _⟩ := run_completes_of_capacity [Op.Put key value] s hs
    refine ⟨s1, ?_⟩
    simp only [run, step] at h1
    cases hp : Put s key value with
    | none => rw [hp] at h1; exact Option.noConfusion h1
    | some s2 => rw [hp] at h1; exact h1
  · cases hb : GoList.Back s.ll with
    | none =>
      have hnil : s.ll = [] := List.getLast?_eq_none_iff.1 hb
      rw [hnil] at hlen
      simp [GoList.Len] at hlen
      omega
    | some last => exact ⟨last, rfl, List.mem_of_getLast?_eq_some hb⟩

/-- C13 at capacity 2 for the sequence `Put 1`, `Put 2`, `Put 3`, `Clear`,
`Put 4`, in which the second `Put` takes the eviction branch. -/
theorem run_completes_positive_capacity_witness :
    (1 : Int) ≤ 2 ∧
    ∃ s, run (NewLruCache 2 : LRUCache Nat Nat)
        [Op.Put 1 10, Op.Put 2 20, Op.Put 3 30, Op.Clear, Op.Put 4 40] = some s ∧
      (∀ key value, ∃ s1, Put s key value = some s1) ∧
      (GoList.Len s.ll = s.capacity → ∃ last, GoList.Back s.ll = some last ∧ last ∈ s.ll) :=
  ⟨by decide, run_completes_positive_capacity 2 (by decide) _⟩

/-- C19: in every reachable state, for every key of the index the element
whose pointer is stored in its `cacheItem` is linked in the recency list and
carries that key, and it is the only linked element with that pointer; so
`MoveToFront` on the handle relinks exactly this element first and the list
`Remove` on the handle unlinks exactly one element. -/
theorem index_handles_stay_linked (cap : Int) (s : LRUCache K V) (hr : Reachable cap s)
    (key : K) (item : cacheItem V) (hk : s.cache.get? key = some item) :
    ({ id := item.node, Value := key } : Element K) ∈ s.ll ∧
    (∀ e ∈ s.ll, e.id = item.node → e = { id := item.node, Value := key }) ∧
    GoList.MoveToFront s.ll item.node
      = { id := item.node, Value := key } :: s.ll.eraseP (GoList.isElem item.node) ∧
    GoList.Len (GoList.Remove s.ll item.node) = GoList.Len s.ll - 1 := by
  have hinv := Inv_of_Reachable hr
  have hmem := hinv.handle key item hk
  exact ⟨hmem, fun e he hid => GoList.eq_of_id_eq hinv.nodup he hmem hid,
    GoList.MoveToFront_of_mem hinv.nodup hmem, GoList.Len_Remove_of_mem hmem⟩

/-- C19 at capacity 2 after `Put 1 10`, `Put 2 20` (which evicts key 1), for
the stored key 2. -/
theorem index_handles_stay_linked_witness :
    Reachable 2 (insertNew
      { insertNew (NewLruCache 2 : LRUCache Nat Nat) 1 10 with
        ll := [{ id := 1, Value := 1 }], cache := [] } 2 20) ∧
    ({ id := 2, Value := 2 } : Element Nat) ∈ (insertNew
      { insertNew (NewLruCache 2 : LRUCache Nat Nat) 1 10 with
        ll := [{ id := 1, Value := 1 }], cache := [] } 2 20).ll :=
  ⟨Reachable.next (Op.Put 2 20) (Reachable.next (Op.Put 1 10) Reachable.init (by rfl)) (by rfl),
    (index_handles_stay_linked 2 _
      (Reachable.next (Op.Put 2 20) (Reachable.next (Op.Put 1 10) Reachable.init (by rfl))
        (by rfl)) 2 { node := 2, value := 20 } (by rfl)).1⟩

end CacheClaims

/-! ## Sizes of maps with one entry per key -/

namespace GoMap

variable {T : Type}

theorem get?_eq_none_of_not_mem (m : GoMap K T) (k : K) (h : k ∉ m.map Prod.fst) :
    get? m k = none := by
  induction m with
  | nil => rfl
  | cons p r ih =>
    obtain ⟨a, b⟩ := p
    simp only [List.map_cons, List.mem_cons, not_or] at h
    have ha : ¬ a = k := fun e => h.1 e.symm
    simp only [get?, if_neg ha]
    exact ih h.2

theorem not_mem_of_get?_eq_none (m : GoMap K T) (k : K) (h : get? m k = none) :
    k ∉ m.map Prod.fst := by
  induction m with
  | nil => simp
  | cons p r ih =>
    obtain ⟨a, b⟩ := p
    by_cases ha : a = k
    · simp [get?, ha] at h
    · simp only [get?, if_neg ha] at h
      simp only [List.map_cons, List.mem_cons, not_or]
      exact ⟨fun e => ha e.symm, ih h⟩

theorem delete_of_absent (m : GoMap K T) (k : K) (h : get? m k = none) : delete m k = m := by
  unfold delete
  rw [List.filter_eq_self]
  intro p hp
  have hk := not_mem_of_get?_eq_none m k h
  have : p.1 ≠ k := fun e => hk (List.mem_map.2 ⟨p, hp, e⟩)
  simpa using this

theorem keys_delete_sublist (m : GoMap K T) (k : K) :
    ((delete m k).map Prod.fst).Sublist (m.map Prod.fst) :=
  (List.filter_sublist m).map Prod.fst

theorem nodup_keys_delete {m : GoMap K T} (h : (m.map Prod.fst).Nodup) (k : K) :
    ((delete m k).map Prod.fst).Nodup :=
  List.Nodup.sublist (keys_delete_sublist m k) h

theorem nodup_keys_set {m : GoMap K T} (h : (m.map Prod.fst).Nodup) (k : K) (x : T) :
    ((set m k x).map Prod.fst).Nodup := by
  simp only [set, List.map_cons, List.nodup_cons]
  exact ⟨not_mem_of_get?_eq_none _ k (get?_delete_self m k), nodup_keys_delete h k⟩

theorem length_delete_of_present {m : GoMap K T} (h : (m.map Prod.fst).Nodup) {k : K} {x : T}
    (hk : get? m k = some x) : (delete m k).length + 1 = m.length := by
  induction m with
  | nil => simp [get?] at hk
  | cons p r ih =>
    obtain ⟨a, b⟩ := p
    simp only [List.map_cons, List.nodup_cons] at h
    by_cases ha : a = k
    · subst ha
      have hr : delete r a = r := delete_of_absent r a (get?_eq_none_of_not_mem r a h.1)
      have hd : delete ((a, b) :: r) a = delete r a := by
        simp [delete, List.filter_cons]
      rw [hd, hr]
      rfl
    · have hd : delete ((a, b) :: r) k = (a, b) :: delete r k := by
        simp [delete, List.filter_cons, ha]
      have hk1 : get? r k = some x := by simpa [get?, ha] using hk
      rw [hd]
      simp only [List.length_cons]
      rw [ih h.2 hk1]

theorem len_delete_of_present {m : GoMap K T} (h : (m.map Prod.fst).Nodup) {k : K} {x : T}
    (hk : get? m k = some x) : len (delete m k) = len m - 1 := by
  have := length_delete_of_present h hk
  simp only [len]
  omega

theorem len_set_of_absent (m : GoMap K T) (k : K) (x : T) (hk : get? m k = none) :
    len (set m k x) = len m + 1 := by
  simp [len, set, delete_of_absent m k hk]

theorem len_set_of_present {m : GoMap K T} (h : (m.map Prod.fst).Nodup) {k : K} {y : T} (x : T)
    (hk : get? m k = some y) : len (set m k x) = len m := by
  have := length_delete_of_present h hk
  simp only [len, set, List.length_cons]
  omega

end GoMap

/-! ## The wait records along schedules -/

namespace SyncMap

section Records

variable [Inhabited V]

theorem mem_Broadcast {ws : List (Waiter K)} {c : Nat} {w1 : Waiter K}
    (h : w1 ∈ Broadcast ws c) :
    ∃ w ∈ ws, w1.ticket = w.ticket ∧ w1.cond = w.cond ∧ w1.key = w.key ∧
      (w1.woken = false → w.woken = false ∧ w.cond ≠ c) := by
  obtain ⟨w, hw, rfl⟩ := List.mem_map.1 h
  refine ⟨w, hw, ?_⟩
  by_cases hc : w.cond = c
  · simp [hc]
  · simp [hc]

theorem tickets_Broadcast (ws : List (Waiter K)) (c : Nat) :
    (Broadcast ws c).map Waiter.ticket = ws.map Waiter.ticket := by
  unfold Broadcast
  rw [List.map_map]
  apply List.map_congr_left
  intro w _
  by_cases hc : w.cond = c <;> simp [hc]

theorem SInv_NewSyncMap : Inv (NewSyncMap : SyncMap K V) := by
  refine ⟨?_, ?_, ?_, ?_, ?_, ?_, ?_, ?_, ?_⟩ <;> simp [NewSyncMap, GoMap.get?]

theorem Get_eq_of_present {m : SyncMap K V} {key : K} {item : V}
    (h : m.items.get? key = some item) : Get m key = (GetResult.done item true, m) := by
  unfold Get; rw [h]

theorem Get_eq_of_record {m : SyncMap K V} {key : K} {c : Nat}
    (h : m.items.get? key = none) (hc : m.condiMap.get? key = some c) :
    Get m key = (GetResult.suspended m.nextId,
      { m with waiters := m.waiters ++
                 [{ ticket := m.nextId, cond := c, key := key, woken := false }],
               nextId := m.nextId + 1 }) := by
  unfold Get; rw [h, hc]

theorem Get_eq_of_no_record {m : SyncMap K V} {key : K}
    (h : m.items.get? key = none) (hc : m.condiMap.get? key = none) :
    Get m key = (GetResult.suspended (m.nextId + 1),
      { m with condiMap := GoMap.set m.condiMap key m.nextId,
               waiters := m.waiters ++
                 [{ ticket := m.nextId + 1, cond := m.nextId, key := key, woken := false }],
               nextId := m.nextId + 2 }) := by
  unfold Get; rw [h, hc]

theorem nodup_tickets_append {ws : List (Waiter K)} {n t : Nat} (w : Waiter K)
    (hn : (ws.map Waiter.ticket).Nodup) (hlt : ∀ x ∈ ws, x.ticket < n)
    (ht : w.ticket = t) (hge : n ≤ t) : ((ws ++ [w]).map Waiter.ticket).Nodup := by
  rw [List.map_append, List.nodup_append]
  refine ⟨hn, by simp, ?_⟩
  intro a ha hb
  obtain ⟨x, hx, rfl⟩ := List.mem_map.1 ha
  have h1 := hlt x hx
  simp only [List.map_cons, List.map_nil, List.mem_singleton] at hb
  omega

theorem SInv_Get_record {m : SyncMap K V} (h : Inv m) {key : K} {c : Nat}
    (hc : m.condiMap.get? key = some c) :
    Inv { m with waiters := m.waiters ++
                   [{ ticket := m.nextId, cond := c, key := key, woken := false }],
                 nextId := m.nextId + 1 } := by
  refine ⟨h.keys, nodup_tickets_append _ h.tickets h.ticket_lt rfl (Nat.le_refl _),
    ?_, ?_, ?_, h.inj, ?_, ?_, h.absent⟩
  · intro w hw
    rcases List.mem_append.1 hw with hw | hw
    · exact Nat.lt_succ_of_lt (h.ticket_lt w hw)
    · rw [List.mem_singleton.1 hw]; exact Nat.lt_succ_self _
  · intro k c1 hk
    exact Nat.lt_succ_of_lt (h.cond_lt k c1 hk)
  · intro w hw
    rcases List.mem_append.1 hw with hw | hw
    · exact Nat.lt_succ_of_lt (h.wcond_lt w hw)
    · rw [List.mem_singleton.1 hw]; exact Nat.lt_succ_of_lt (h.cond_lt key c hc)
  · intro w hw k hk
    rcases List.mem_append.1 hw with hw | hw
    · exact h.owner w hw k hk
    · rw [List.mem_singleton.1 hw] at hk ⊢
      exact h.inj k key c hk hc
  · intro w hw hwk
    rcases List.mem_append.1 hw with hw | hw
    · exact h.pending w hw hwk
    · rw [List.mem_singleton.1 hw]; exact hc

theorem SInv_Get_no_record {m : SyncMap K V} (h : Inv m) {key : K}
    (hi : m.items.get? key = none) (hc : m.condiMap.get? key = none) :
    Inv { m with condiMap := GoMap.set m.condiMap key m.nextId,
                 waiters := m.waiters ++
                   [{ ticket := m.nextId + 1, cond := m.nextId, key := key, woken := false }],
                 nextId := m.nextId + 2 } := by
  have hrec : ∀ k c1, GoMap.get? (GoMap.set m.condiMap key m.nextId) k = some c1 →
      (k = key ∧ c1 = m.nextId) ∨ (k ≠ key ∧ m.condiMap.get? k = some c1) := by
    intro k c1 hk
    by_cases hkk : k = key
    · subst hkk
      rw [GoMap.get?_set_self] at hk
      exact Or.inl ⟨rfl, (Option.some.inj hk).symm⟩
    · rw [GoMap.get?_set_ne _ _ hkk] at hk
      exact Or.inr ⟨hkk, hk⟩
  refine ⟨h.keys, nodup_tickets_append _ h.tickets h.ticket_lt rfl (Nat.le_succ _),
    ?_, ?_, ?_, ?_, ?_, ?_, ?_⟩
  · intro w hw
    rcases List.mem_append.1 hw with hw | hw
    · have := h.ticket_lt w hw
      show w.ticket < m.nextId + 2
      omega
    · rw [List.mem_singleton.1 hw]
      show m.nextId + 1 < m.nextId + 2
      omega
  · intro k c1 hk
    show c1 < m.nextId + 2
    rcases hrec k c1 hk with ⟨_, rfl⟩ | ⟨_, hk1⟩
    · omega
    · have := h.cond_lt k c1 hk1
      omega
  · intro w hw
    show w.cond < m.nextId + 2
    rcases List.mem_append.1 hw with hw | hw
    · have := h.wcond_lt w hw
      omega
    · rw [List.mem_singleton.1 hw]
      show m.nextId < m.nextId + 2
      omega
  · intro k1 k2 c1 h1 h2
    rcases hrec k1 c1 h1 with ⟨e1, rfl⟩ | ⟨n1, g1⟩
    · rcases hrec k2 _ h2 with ⟨e2, _⟩ | ⟨_, g2⟩
      · rw [e1, e2]
      · exact absurd (h.cond_lt k2 _ g2) (Nat.lt_irrefl _)
    · rcases hrec k2 c1 h2 with ⟨e2, rfl⟩ | ⟨_, g2⟩
      · exact absurd (h.cond_lt k1 _ g1) (Nat.lt_irrefl _)
      · exact h.inj k1 k2 c1 g1 g2
  · intro w hw k hk
    rcases List.mem_append.1 hw with hw | hw
    · rcases hrec k _ hk with ⟨_, e⟩ | ⟨_, g⟩
      · have := h.wcond_lt w hw
        omega
      · exact h.owner w hw k g
    · rw [List.mem_singleton.1 hw] at hk ⊢
      rcases hrec k _ hk with ⟨e, _⟩ | ⟨_, g⟩
      · exact e
      · exact absurd (h.cond_lt k _ g) (Nat.lt_irrefl _)
  · intro w hw hwk
    rcases List.mem_append.1 hw with hw | hw
    · have hp := h.pending w hw hwk
      have hne : w.key ≠ key := by
        intro e
        rw [e, hc] at hp
        exact Option.noConfusion hp
      show GoMap.get? (GoMap.set m.condiMap key m.nextId) w.key = some w.cond
      rw [GoMap.get?_set_ne _ _ hne]
      exact hp
    · rw [List.mem_singleton.1 hw]
      exact GoMap.get?_set_self _ _ _
  · intro k c1 hk
    rcases hrec k c1 hk with ⟨e, _⟩ | ⟨_, g⟩
    · rw [e]; exact hi
    · exact h.absent k c1 g

theorem SInv_Get {m : SyncMap K V} (h : Inv m) (key : K) : Inv (Get m key).2 := by
  cases hi : m.items.get? key with
  | some item => rw [Get_eq_of_present hi]; exact h
  | none =>
    cases hc : m.condiMap.get? key with
    | some c => rw [Get_eq_of_record hi hc]; exact SInv_Get_record h hc
    | none => rw [Get_eq_of_no_record hi hc]; exact SInv_Get_no_record h hi hc

theorem Set_eq_of_record {m : SyncMap K V} {key : K} {c : Nat} (value : V)
    (hc : m.condiMap.get? key = some c) :
    Set m key value = { m with items := GoMap.set m.items key value,
                               waiters := Broadcast m.waiters c,
                               condiMap := GoMap.delete m.condiMap key } := by
  unfold Set; rw [hc]

theorem Set_eq_of_no_record {m : SyncMap K V} {key : K} (value : V)
    (hc : m.condiMap.get? key = none) :
    Set m key value = { m with items := GoMap.set m.items key value } := by
  unfold Set; rw [hc]

theorem get?_delete_eq_some {T : Type} {m : GoMap K T} {key k : K} {x : T}
    (h : GoMap.get? (GoMap.delete m key) k = some x) : k ≠ key ∧ GoMap.get? m k = some x := by
  by_cases hk : k = key
  · rw [hk, GoMap.get?_delete_self] at h
    exact Option.noConfusion h
  · rw [GoMap.get?_delete_ne m hk] at h
    exact ⟨hk, h⟩

theorem SInv_Set {m : SyncMap K V} (h : Inv m) (key : K) (value : V) :
    Inv (Set m key value) := by
  cases hc : m.condiMap.get? key with
  | none =>
    rw [Set_eq_of_no_record value hc]
    refine ⟨GoMap.nodup_keys_set h.keys key value, h.tickets, h.ticket_lt, h.cond_lt,
      h.wcond_lt, h.inj, h.owner, h.pending, ?_⟩
    intro k c1 hk
    have hne : k ≠ key := by
      intro e
      rw [e, hc] at hk
      exact Option.noConfusion hk
    show GoMap.get? (GoMap.set m.items key value) k = none
    rw [GoMap.get?_set_ne _ _ hne]
    exact h.absent k c1 hk
  | some c =>
    rw [Set_eq_of_record value hc]
    refine ⟨GoMap.nodup_keys_set h.keys key value, ?_, ?_, ?_, ?_, ?_, ?_, ?_, ?_⟩
    · show ((Broadcast m.waiters c).map Waiter.ticket).Nodup
      rw [tickets_Broadcast]
      exact h.tickets
    · intro w1 hw1
      obtain ⟨w, hw, ht, _, _, _⟩ := mem_Broadcast hw1
      rw [ht]
      exact h.ticket_lt w hw
    · intro k c1 hk
      exact h.cond_lt k c1 (get?_delete_eq_some hk).2
    · intro w1 hw1
      obtain ⟨w, hw, _, hcd, _, _⟩ := mem_Broadcast hw1
      rw [hcd]
      exact h.wcond_lt w hw
    · intro k1 k2 c1 h1 h2
      exact h.inj k1 k2 c1 (get?_delete_eq_some h1).2 (get?_delete_eq_some h2).2
    · intro w1 hw1 k hk
      obtain ⟨w, hw, _, hcd, hky, _⟩ := mem_Broadcast hw1
      rw [hky]
      rw [hcd] at hk
      exact h.owner w hw k (get?_delete_eq_some hk).2
    · intro w1 hw1 hwk
      obtain ⟨w, hw, _, hcd, hky, hun⟩ := mem_Broadcast hw1
      obtain ⟨hwf, hne⟩ := hun hwk
      have hp := h.pending w hw hwf
      have hkne : w.key ≠ key := by
        intro e
        rw [e, hc] at hp
        exact hne (Option.some.inj hp).symm
      show GoMap.get? (GoMap.delete m.condiMap key) w1.key = some w1.cond
      rw [hky, hcd, GoMap.get?_delete_ne _ hkne]
      exact hp
    · intro k c1 hk
      obtain ⟨hne, hk1⟩ := get?_delete_eq_some hk
      show GoMap.get? (GoMap.set m.items key value) k = none
      rw [GoMap.get?_set_ne _ _ hne]
      exact h.absent k c1 hk1

theorem SInv_Delete {m : SyncMap K V} (h : Inv m) (key : K) : Inv (Delete m key) := by
  refine ⟨GoMap.nodup_keys_delete h.keys key, h.tickets, h.ticket_lt, h.cond_lt,
    h.wcond_lt, h.inj, h.owner, h.pending, ?_⟩
  intro k c1 hk
  show GoMap.get? (GoMap.delete m.items key) k = none
  by_cases hkk : k = key
  · rw [hkk]; exact GoMap.get?_delete_self _ _
  · rw [GoMap.get?_delete_ne _ hkk]
    exact h.absent k c1 hk

theorem GetResume_eq_some {m : SyncMap K V} {t : Nat} {r : (V × Bool) × SyncMap K V}
    (h : GetResume m t = some r) :
    ∃ w, m.waiters.find? (hasTicket t) = some w ∧ w.woken = true ∧
      r = (((m.items.get? w.key).getD default, true),
        { m with waiters := m.waiters.eraseP (hasTicket t) }) := by
  unfold GetResume at h
  cases hf : m.waiters.find? (hasTicket t) with
  | none => rw [hf] at h; exact Option.noConfusion h
  | some w =>
    rw [hf] at h
    by_cases hw : w.woken = true
    · simp only [hw, if_true] at h
      exact ⟨w, rfl, hw, (Option.some.inj h).symm⟩
    · simp only [hw] at h
      exact Option.noConfusion h

theorem SInv_eraseP {m : SyncMap K V} (h : Inv m) (p : Waiter K → Bool) :
    Inv { m with waiters := m.waiters.eraseP p } := by
  have hsub : ∀ w, w ∈ m.waiters.eraseP p → w ∈ m.waiters := fun w hw =>
    List.mem_of_mem_eraseP hw
  exact ⟨h.keys, List.Nodup.sublist ((List.eraseP_sublist m.waiters).map Waiter.ticket) h.tickets,
    fun w hw => h.ticket_lt w (hsub w hw), h.cond_lt, fun w hw => h.wcond_lt w (hsub w hw),
    h.inj, fun w hw => h.owner w (hsub w hw), fun w hw => h.pending w (hsub w hw), h.absent⟩

theorem SInv_step {m m1 : SyncMap K V} (h : Inv m) {a : Act K V}
    (hs : step m a = some m1) : Inv m1 := by
  cases a with
  | Get key =>
    rw [← Option.some.inj hs]
    exact SInv_Get h key
  | Resume t =>
    simp only [step] at hs
    cases hr : GetResume m t with
    | none => rw [hr] at hs; exact Option.noConfusion hs
    | some r =>
      rw [hr] at hs
      obtain ⟨w, _, _, rfl⟩ := GetResume_eq_some hr
      rw [← Option.some.inj hs]
      exact SInv_eraseP h _
  | Set key value =>
    rw [← Option.some.inj hs]
    exact SInv_Set h key value
  | Delete key =>
    rw [← Option.some.inj hs]
    exact SInv_Delete h key

theorem SInv_of_Reachable {m : SyncMap K V} (h : Reachable m) : Inv m := by
  induction h with
  | init => exact SInv_NewSyncMap
  | next a _ hs ih => exact SInv_step ih hs

theorem SInv_run {m m1 : SyncMap K V} (h : Inv m) (sched : List (Act K V))
    (hr : run m sched = some m1) : Inv m1 := by
  induction sched generalizing m with
  | nil =>
    rw [← Option.some.inj hr]
    exact h
  | cons a as ih =>
    simp only [run] at hr
    cases hs : step m a with
    | none => rw [hs] at hr; exact Option.noConfusion hr
    | some m2 =>
      rw [hs] at hr
      exact ih (SInv_step h hs) hr

theorem items_Get (m : SyncMap K V) (key : K) : (Get m key).2.items = m.items := by
  unfold Get
  cases m.items.get? key with
  | some item => rfl
  | none => cases m.condiMap.get? key <;> rfl

theorem items_Set (m : SyncMap K V) (key : K) (value : V) :
    (Set m key value).items = GoMap.set m.items key value := by
  unfold Set
  cases m.condiMap.get? key <;> rfl

theorem items_step_of_not_writes {m m1 : SyncMap K V} {a : Act K V} {key : K}
    (hs : step m a = some m1) (hw : Act.writes key a = false) :
    m1.items.get? key = m.items.get? key := by
  cases a with
  | Get k =>
    rw [← Option.some.inj hs]
    show GoMap.get? (Get m k).2.items key = _
    rw [items_Get]
  | Resume t =>
    simp only [step] at hs
    cases hr : GetResume m t with
    | none => rw [hr] at hs; exact Option.noConfusion hs
    | some r =>
      rw [hr] at hs
      obtain ⟨w, _, _, rfl⟩ := GetResume_eq_some hr
      rw [← Option.some.inj hs]
  | Set k value =>
    have hne : key ≠ k := by
      intro e
      simp [Act.writes, e] at hw
    rw [← Option.some.inj hs]
    show GoMap.get? (Set m k value).items key = _
    rw [items_Set, GoMap.get?_set_ne _ _ hne]
  | Delete k =>
    have hne : key ≠ k := by
      intro e
      simp [Act.writes, e] at hw
    rw [← Option.some.inj hs]
    exact GoMap.get?_delete_ne _ hne

theorem items_run_of_not_writes {m m1 : SyncMap K V} {key : K} (sched : List (Act K V))
    (hw : ∀ a ∈ sched, Act.writes key a = false) (hr : run m sched = some m1) :
    m1.items.get? key = m.items.get? key := by
  induction sched generalizing m with
  | nil => rw [← Option.some.inj hr]
  | cons a as ih =>
    simp only [run] at hr
    cases hs : step m a with
    | none => rw [hs] at hr; exact Option.noConfusion hr
    | some m2 =>
      rw [hs] at hr
      rw [ih (fun b hb => hw b (List.mem_cons_of_mem a hb)) hr]
      exact items_step_of_not_writes hs (hw a (List.mem_cons_self a as))

theorem find?_hasTicket {ws : List (Waiter K)} (hn : (ws.map Waiter.ticket).Nodup)
    {w : Waiter K} (hw : w ∈ ws) : ws.find? (hasTicket w.ticket) = some w := by
  cases hf : ws.find? (hasTicket w.ticket) with
  | none =>
    have := (List.find?_eq_none.1 hf) w hw
    simp [hasTicket] at this
  | some x =>
    have hx : x ∈ ws := List.mem_of_find?_eq_some hf
    have ht : x.ticket = w.ticket := by
      have := List.find?_some hf
      simpa [hasTicket] using this
    rw [List.inj_on_of_nodup_map hn hx hw ht]

theorem GetResume_of_unwoken {m : SyncMap K V} (hn : (m.waiters.map Waiter.ticket).Nodup)
    {w : Waiter K} (hw : w ∈ m.waiters) (hu : w.woken = false) :
    GetResume m w.ticket = none := by
  unfold GetResume
  rw [find?_hasTicket hn hw]
  simp [hu]

theorem GetResume_of_woken {m : SyncMap K V} (hn : (m.waiters.map Waiter.ticket).Nodup)
    {w : Waiter K} (hw : w ∈ m.waiters) (hu : w.woken = true) :
    GetResume m w.ticket = some (((m.items.get? w.key).getD default, true),
      { m with waiters := m.waiters.eraseP (hasTicket w.ticket) }) := by
  unfold GetResume
  rw [find?_hasTicket hn hw]
  simp [hu]

theorem waiter_persists_step {m m1 : SyncMap K V} (h : Inv m) {w : Waiter K}
    (hw : w ∈ m.waiters) (hu : w.woken = false) {a : Act K V}
    (hs : step m a = some m1) (ha : Act.sets w.key a = false) : w ∈ m1.waiters := by
  cases a with
  | Get k =>
    rw [← Option.some.inj hs]
    show w ∈ (Get m k).2.waiters
    unfold Get
    cases m.items.get? k with
    | some item => exact hw
    | none =>
      cases m.condiMap.get? k with
      | some c => exact List.mem_append_left _ hw
      | none => exact List.mem_append_left _ hw
  | Resume t =>
    simp only [step] at hs
    cases hr : GetResume m t with
    | none => rw [hr] at hs; exact Option.noConfusion hs
    | some r =>
      rw [hr] at hs
      obtain ⟨x, hf, hx, rfl⟩ := GetResume_eq_some hr
      rw [← Option.some.inj hs]
      have hne : w.ticket ≠ t := by
        intro e
        rw [← e, find?_hasTicket h.tickets hw] at hf
        rw [Option.some.inj hf, hx] at hu
        exact Bool.noConfusion hu
      show w ∈ m.waiters.eraseP (hasTicket t)
      rw [List.mem_eraseP_of_neg]
      · exact hw
      · simpa [hasTicket] using hne
  | Set k value =>
    have hne : k ≠ w.key := by
      intro e
      simp [Act.sets, e] at ha
    rw [← Option.some.inj hs]
    show w ∈ (Set m k value).waiters
    cases hc : m.condiMap.get? k with
    | none => rw [Set_eq_of_no_record value hc]; exact hw
    | some c =>
      rw [Set_eq_of_record value hc]
      have hcn : w.cond ≠ c := by
        intro e
        rw [← e] at hc
        exact hne (h.owner w hw k hc)
      show w ∈ Broadcast m.waiters c
      unfold Broadcast
      exact List.mem_map.2 ⟨w, hw, by simp [hcn]⟩
  | Delete k =>
    rw [← Option.some.inj hs]
    exact hw

theorem waiter_persists_run {m m1 : SyncMap K V} (h : Inv m) {w : Waiter K}
    (hw : w ∈ m.waiters) (hu : w.woken = false) (sched : List (Act K V))
    (ha : ∀ a ∈ sched, Act.sets w.key a = false) (hr : run m sched = some m1) :
    w ∈ m1.waiters := by
  induction sched generalizing m with
  | nil =>
    rw [← Option.some.inj hr]
    exact hw
  | cons a as ih =>
    simp only [run] at hr
    cases hs : step m a with
    | none => rw [hs] at hr; exact Option.noConfusion hr
    | some m2 =>
      rw [hs] at hr
      exact ih (SInv_step h hs)
        (waiter_persists_step h hw hu hs (ha a (List.mem_cons_self a as)))
        (fun b hb => ha b (List.mem_cons_of_mem a hb)) hr

theorem Set_wakes {m : SyncMap K V} (h : Inv m) {w : Waiter K} (hw : w ∈ m.waiters)
    (hu : w.woken = false) (value : V) :
    ({ w with woken := true } : Waiter K) ∈ (Set m w.key value).waiters := by
  have hp := h.pending w hw hu
  rw [Set_eq_of_record value hp]
  show _ ∈ Broadcast m.waiters w.cond
  unfold Broadcast
  exact List.mem_map.2 ⟨w, hw, by simp⟩

theorem resumeAll_of_woken {value : V} {key : K} (ts : List Nat) (m : SyncMap K V)
    (hn : (m.waiters.map Waiter.ticket).Nodup) (hi : m.items.get? key = some value)
    (hts : ts.Nodup)
    (hw : ∀ t ∈ ts, ∃ w ∈ m.waiters, w.ticket = t ∧ w.key = key ∧ w.woken = true) :
    ∃ m2, resumeAll m ts = some (ts.map (fun _ => (value, true)), m2) := by
  induction ts generalizing m with
  | nil => exact ⟨m, rfl⟩
  | cons t ts ih =>
    obtain ⟨w, hwm, rfl, hk, hwk⟩ := hw _ (List.mem_cons_self _ _)
    have hres := GetResume_of_woken hn hwm hwk
    rw [hk, hi] at hres
    have hts1 := List.nodup_cons.1 hts
    obtain ⟨m2, h2⟩ := ih { m with waiters := m.waiters.eraseP (hasTicket w.ticket) }
      (List.Nodup.sublist ((List.eraseP_sublist m.waiters).map Waiter.ticket) hn) hi hts1.2
      (by
        intro t1 ht1
        obtain ⟨w1, hw1, e1, k1, u1⟩ := hw t1 (List.mem_cons_of_mem _ ht1)
        refine ⟨w1, ?_, e1, k1, u1⟩
        have hne : w1.ticket ≠ w.ticket := by
          intro e
          rw [e1] at e
          rw [e] at ht1
          exact hts1.1 ht1
        show w1 ∈ m.waiters.eraseP (hasTicket w.ticket)
        rw [List.mem_eraseP_of_neg]
        · exact hw1
        · simpa [hasTicket] using hne)
    refine ⟨m2, ?_⟩
    simp only [resumeAll, hres, Option.getD_some, h2, Option.map_some', List.map_cons]

end Records

/-! ## The claims about the blocking map -/

section MapClaims

variable [Inhabited V]

/-- C14: for every map state (one entry per key), key and value, a `Get key`
that runs after `Set key value`, with any schedule in between that holds no
`Set` and no `Delete` of `key`, takes the non-blocking branch and returns
`(value, true)` without changing the map; `Len()` right after the `Set` is one
more than before when `key` was absent and the same when it was present. -/
theorem Set_then_Get_returns_value (m : SyncMap K V) (hkeys : (m.items.map Prod.fst).Nodup)
    (key : K) (value : V) (sched : List (Act K V))
    (hw : ∀ a ∈ sched, Act.writes key a = false) (m1 : SyncMap K V)
    (hr : run (Set m key value) sched = some m1) :
    Get m1 key = (GetResult.done value true, m1) ∧
    (m.items.get? key = none → Len (Set m key value) = Len m + 1) ∧
    (∀ old, m.items.get? key = some old → Len (Set m key value) = Len m) := by
  have hi : m1.items.get? key = some value := by
    rw [items_run_of_not_writes sched hw hr, items_Set]
    exact GoMap.get?_set_self _ _ _
  refine ⟨Get_eq_of_present hi, fun hn => ?_, fun old ho => ?_⟩
  · simp only [Len, items_Set]
    exact GoMap.len_set_of_absent _ _ _ hn
  · simp only [Len, items_Set]
    exact GoMap.len_set_of_present hkeys _ ho

/-- C14 on the map holding `key1 ↦ 1`, overwritten with 42, with a `Set` of
another key and a suspended `Get` of a third key in between. -/
theorem Set_then_Get_returns_value_witness :
    SyncMap.Get (SyncMap.Set (SyncMap.Set (SyncMap.Set (NewSyncMap : SyncMap String Nat)
        "key1" 1) "key1" 42) "key2" 7) "key1"
      = (GetResult.done 42 true,
        SyncMap.Set (SyncMap.Set (SyncMap.Set (NewSyncMap : SyncMap String Nat)
          "key1" 1) "key1" 42) "key2" 7) ∧
    SyncMap.Len (SyncMap.Set (SyncMap.Set (NewSyncMap : SyncMap String Nat) "key1" 1) "key1" 42)
      = SyncMap.Len (SyncMap.Set (NewSyncMap : SyncMap String Nat) "key1" 1) :=
  ⟨(Set_then_Get_returns_value (SyncMap.Set (NewSyncMap : SyncMap String Nat) "key1" 1)
      (by decide) "key1" 42 [Act.Set "key2" 7] (by decide) _ (by rfl)).1,
    (Set_then_Get_returns_value (SyncMap.Set (NewSyncMap : SyncMap String Nat) "key1" 1)
      (by decide) "key1" 42 [Act.Set "key2" 7] (by decide) _ (by rfl)).2.2 1 (by rfl)⟩

/-- C15: for every map state (one entry per key) and key, after `Delete key`
the key is absent, every other entry of `items` is as before, and `condiMap`
and the suspended callers are exactly as before (nobody is released or
removed); `Len()` drops by one when the key was present, and when it was absent
the whole state and `Len()` are unchanged. -/
theorem Delete_removes_only_the_entry (m : SyncMap K V)
    (hkeys : (m.items.map Prod.fst).Nodup) (key : K) :
    (Delete m key).items.get? key = none ∧
    (∀ k1, k1 ≠ key → (Delete m key).items.get? k1 = m.items.get? k1) ∧
    (Delete m key).condiMap = m.condiMap ∧
    (Delete m key).waiters = m.waiters ∧
    (∀ old, m.items.get? key = some old → Len (Delete m key) = Len m - 1) ∧
    (m.items.get? key = none → Delete m key = m ∧ Len (Delete m key) = Len m) := by
  refine ⟨GoMap.get?_delete_self _ _, fun k1 hk1 => GoMap.get?_delete_ne _ hk1, rfl, rfl,
    fun old ho => GoMap.len_delete_of_present hkeys ho, fun hn => ?_⟩
  have hd : Delete m key = m := by
    simp only [Delete, GoMap.delete_of_absent m.items key hn]
  exact ⟨hd, by rw [hd]⟩

/-- C15 on the map holding `key1 ↦ 42` with a caller suspended on `key1`
after an earlier `Delete`: the entry goes, `Len()` drops from 1 to 0, and the
wait records and suspended callers stay. -/
theorem Delete_removes_only_the_entry_witness :
    SyncMap.Len (SyncMap.Delete (SyncMap.Set
        (SyncMap.Get (NewSyncMap : SyncMap String Nat) "key2").2 "key1" 42) "key1")
      = SyncMap.Len (SyncMap.Set
        (SyncMap.Get (NewSyncMap : SyncMap String Nat) "key2").2 "key1" 42) - 1 ∧
    (SyncMap.Delete (SyncMap.Set
        (SyncMap.Get (NewSyncMap : SyncMap String Nat) "key2").2 "key1" 42) "key1").waiters
      = (SyncMap.Set (SyncMap.Get (NewSyncMap : SyncMap String Nat) "key2").2 "key1" 42).waiters :=
  ⟨(Delete_removes_only_the_entry
      (SyncMap.Set (SyncMap.Get (NewSyncMap : SyncMap String Nat) "key2").2 "key1" 42)
      (by decide) "key1").2.2.2.2.1 42 (by rfl),
    (Delete_removes_only_the_entry
      (SyncMap.Set (SyncMap.Get (NewSyncMap : SyncMap String Nat) "key2").2 "key1" 42)
      (by decide) "key1").2.2.2.1⟩

/-- Broadcast on the uninterrupted schedule: in every reachable state, let `ts`
be the tickets of any number of distinct calls of `Get key` that are suspended
and not yet released.  None of them can return after any schedule that holds no
`Set` of `key`, and a `Get` of a key absent from `items` suspends instead of
returning.  One `Set key value` releases them all, and when they resume one
after the other with no other step in between, in the order `ts`, whatever it
is, each returns `(value, true)`; the wait record of `key` is gone. -/
theorem suspended_Gets_released_when_uninterrupted (m : SyncMap K V) (hr : Reachable m) (key : K)
    (value : V) (ts : List Nat) (hts : ts.Nodup)
    (hw : ∀ t ∈ ts, ∃ w ∈ m.waiters, w.ticket = t ∧ w.key = key ∧ w.woken = false) :
    (∀ sched m1, (∀ a ∈ sched, Act.sets key a = false) → run m sched = some m1 →
      ∀ t ∈ ts, GetResume m1 t = none) ∧
    (∀ m0 : SyncMap K V, m0.items.get? key = none →
      ∃ t, (Get m0 key).1 = GetResult.suspended t) ∧
    (∃ m2, resumeAll (Set m key value) ts = some (ts.map (fun _ => (value, true)), m2)) ∧
    (Set m key value).condiMap.get? key = none := by
  have hinv := SInv_of_Reachable hr
  refine ⟨?_, ?_, ?_, ?_⟩
  · intro sched m1 hs hrun t ht
    obtain ⟨w, hwm, rfl, hk, hu⟩ := hw t ht
    have hm1 := waiter_persists_run hinv hwm hu sched (by rw [hk]; exact hs) hrun
    exact GetResume_of_unwoken (SInv_run hinv sched hrun).tickets hm1 hu
  · intro m0 h0
    cases hc : m0.condiMap.get? key with
    | some c => exact ⟨_, by rw [Get_eq_of_record h0 hc]⟩
    | none => exact ⟨_, by rw [Get_eq_of_no_record h0 hc]⟩
  · apply resumeAll_of_woken ts (Set m key value) (SInv_Set hinv key value).tickets
      (by rw [items_Set]; exact GoMap.get?_set_self _ _ _) hts
    intro t ht
    obtain ⟨w, hwm, rfl, hk, hu⟩ := hw t ht
    refine ⟨{ w with woken := true }, ?_, rfl, hk, rfl⟩
    rw [← hk]
    exact Set_wakes hinv hwm hu value
  · cases hc : m.condiMap.get? key with
    | none => rw [Set_eq_of_no_record value hc]; exact hc
    | some c => rw [Set_eq_of_record value hc]; exact GoMap.get?_delete_self _ _

/-- C16, the code with two callers suspended in `Get k` (tickets 1 and 2,
neither able to return before the `Set`): `Set k 99` releases both, the first
resumes and returns `(99, true)`, then `Delete k` takes the lock before the
second resumes, and the second returns `(0, true)`, not `(99, true)`, while `k`
has no entry in `items`. -/
theorem second_released_Get_returns_zero_after_Delete :
    (SyncMap.run (NewSyncMap : SyncMap String Nat) [Act.Get "k", Act.Get "k"]).map
      (fun m => ((SyncMap.GetResume m 1).isNone, (SyncMap.GetResume m 2).isNone))
      = some (true, true) ∧
    (SyncMap.run (NewSyncMap : SyncMap String Nat)
        [Act.Get "k", Act.Get "k", Act.Set "k" 99]).bind
      (fun m => (SyncMap.GetResume m 1).bind
        (fun r1 => (SyncMap.GetResume (SyncMap.Delete r1.2 "k") 2).map
          (fun r2 => (r1.1, r2.1, GoMap.get? (SyncMap.Delete r1.2 "k").items "k"))))
      = some ((99, true), (0, true), none) := by
  decide

/-- C17, the code on the schedule `Get k` (suspends under ticket 1), `Set k 42`
(releases it), `Delete k`, then the resumption of the `Get`: it returns
`(0, true)`, the zero value with `found = true`, while `k` has no entry in
`items`; lines 39-41 read `m.items[key]` without looking at its `ok`. -/
theorem Get_resumed_after_Delete_returns_zero_true :
    (SyncMap.Get (NewSyncMap : SyncMap String Nat) "k").1 = GetResult.suspended 1 ∧
    (SyncMap.run (NewSyncMap : SyncMap String Nat)
        [Act.Get "k", Act.Set "k" 42, Act.Delete "k"]).bind
      (fun m => (SyncMap.GetResume m 1).map (fun r => (r.1, GoMap.get? m.items "k")))
      = some ((0, true), none) := by
  decide

/-- C18: in every reachable state a key with a wait record in `condiMap` is
absent from `items`; the first section of `Get` changes the record of a key
only when that key is its argument, absent from `items` and without a record
(so a record is created only for an absent key); right after `Set key value`
there is no record for `key` and the records of all other keys are as before;
`Delete` leaves `condiMap` alone. -/
theorem wait_record_only_for_absent_key (m : SyncMap K V) (hr : Reachable m) :
    (∀ k c, m.condiMap.get? k = some c → m.items.get? k = none) ∧
    (∀ key k1, (Get m key).2.condiMap.get? k1 ≠ m.condiMap.get? k1 →
      k1 = key ∧ m.items.get? key = none ∧ m.condiMap.get? key = none) ∧
    (∀ key value, (Set m key value).condiMap.get? key = none ∧
      ∀ k1, k1 ≠ key → (Set m key value).condiMap.get? k1 = m.condiMap.get? k1) ∧
    (∀ key, (Delete m key).condiMap = m.condiMap) := by
  refine ⟨(SInv_of_Reachable hr).absent, ?_, ?_, fun _ => rfl⟩
  · intro key k1 hne
    cases hi : m.items.get? key with
    | some item =>
      rw [Get_eq_of_present hi] at hne
      exact absurd rfl hne
    | none =>
      cases hc : m.condiMap.get? key with
      | some c =>
        rw [Get_eq_of_record hi hc] at hne
        exact absurd rfl hne
      | none =>
        rw [Get_eq_of_no_record hi hc] at hne
        by_cases hk : k1 = key
        · exact ⟨hk, rfl, rfl⟩
        · exact absurd (GoMap.get?_set_ne _ _ hk) hne
  · intro key value
    cases hc : m.condiMap.get? key with
    | none =>
      rw [Set_eq_of_no_record value hc]
      exact ⟨hc, fun _ _ => rfl⟩
    | some c =>
      rw [Set_eq_of_record value hc]
      exact ⟨GoMap.get?_delete_self _ _, fun k1 hk1 => GoMap.get?_delete_ne _ hk1⟩

/-- C18 in the state after `Set a 1` and a suspended `Get b`: the key `b` has
the wait record 0 and is absent from `items`. -/
theorem wait_record_only_for_absent_key_witness :
    GoMap.get? (SyncMap.Get (SyncMap.Set (NewSyncMap : SyncMap String Nat) "a" 1) "b").2.condiMap "b"
      = some 0 ∧
    GoMap.get? (SyncMap.Get (SyncMap.Set (NewSyncMap : SyncMap String Nat) "a" 1) "b").2.items "b"
      = none :=
  ⟨by rfl, (wait_record_only_for_absent_key
    (SyncMap.Get (SyncMap.Set (NewSyncMap : SyncMap String Nat) "a" 1) "b").2
    (Reachable.next (Act.Get "b") (Reachable.next (Act.Set "a" 1) Reachable.init (by rfl))
      (by rfl))).1 "b" 0 (by rfl)⟩

end MapClaims

end SyncMap

end TbbToolLib
